import Mathlib

/-!
A verification development for the tile retention/eviction core of this
repository (the `SourceCache` tile-pyramid manager, its tile coordinates,
its bounded LRU tile cache and its retention resolver).

The JavaScript implementation files themselves (`src/source/source_cache.js`,
`src/source/tile_id.js`, `src/source/tile.js`, `src/source/tile_cache.js`) are
not part of the reviewed sources; only their unit tests
(`src/test/unit/source/source_cache.test.js`) are.  The definitions below are
therefore modelled from the design specification, and wherever the
specification leaves room, from the exact expected values pinned by those unit
tests.  Several `model_matches_test_*` theorems at the end of the definition
section replay concrete unit-test scenarios against the model and check the
model reproduces the tests' expected outputs verbatim.
-/

namespace SourceCacheModel

/-- Modelled from the spec: the tile lifecycle states of `Tile.state`
(spec S3, Tile): `loading`, `loaded`, `reloading`, `errored`, `expired`,
`unloaded`. -/
inductive TileState where
  | loading
  | loaded
  | reloading
  | errored
  | expired
  | unloaded
deriving DecidableEq, Repr

/-- Modelled from the spec (S4.2): a state carries data iff it is
`loaded`, `reloading` or `expired`; errored/loading tiles have no data. -/
def TileState.hasData : TileState → Bool
  | .loaded => true
  | .reloading => true
  | .expired => true
  | _ => false

/-- Modelled from the spec and the retention unit tests: a tile in state
`errored`, `loaded` or `reloading` has already been requested from the
loader once; the ascent only re-requests a missing parent when the tile on
the route below it was already requested (test: "adds parent tile if ideal
tile errors and no child tiles are loaded"). -/
def TileState.wasRequested : TileState → Bool
  | .errored => true
  | .loaded => true
  | .reloading => true
  | _ => false

/-- Modelled from the spec (S3, TileCoordinate): quadtree identifier with
requested detail level `overscaledZ`, antimeridian `wrap`, and the canonical
cell `z`/`x`/`y` (`z ≤ overscaledZ`).  Two coordinates are the same tile iff
all five components match; the components themselves serve as the lookup
key (the spec requires only a bijective key encoding). -/
structure OverscaledTileID where
  overscaledZ : Nat
  wrap : Int
  z : Nat
  x : Nat
  y : Nat
deriving DecidableEq, Repr

namespace OverscaledTileID

/-- Modelled from the spec (`scaledTo`): the ancestor (or overscale
representative) of a coordinate at detail level `targetZ`.  Above the
canonical zoom only `overscaledZ` changes (overzoom unwinding); at or below
it the canonical cell is coarsened by right-shifting `x`/`y`. -/
def scaledTo (id : OverscaledTileID) (targetZ : Nat) : OverscaledTileID :=
  if id.z < targetZ then
    ⟨targetZ, id.wrap, id.z, id.x, id.y⟩
  else
    ⟨targetZ, id.wrap, targetZ, id.x >>> (id.z - targetZ), id.y >>> (id.z - targetZ)⟩

/-- Modelled from the spec (`children`): at or above the source maxzoom a
single overscaled child (one detail level deeper, same canonical cell);
otherwise the four canonical children one level deeper. -/
def children (id : OverscaledTileID) (sourceMaxZoom : Nat) : List OverscaledTileID :=
  if sourceMaxZoom ≤ id.overscaledZ then
    [⟨id.overscaledZ + 1, id.wrap, id.z, id.x, id.y⟩]
  else
    let z := id.z + 1
    [⟨z, id.wrap, z, 2 * id.x, 2 * id.y⟩,
     ⟨z, id.wrap, z, 2 * id.x + 1, 2 * id.y⟩,
     ⟨z, id.wrap, z, 2 * id.x, 2 * id.y + 1⟩,
     ⟨z, id.wrap, z, 2 * id.x + 1, 2 * id.y + 1⟩]

/-- Modelled from the spec: the wrap-0 equivalent of a coordinate; the
bounded tile cache is keyed by wrapped-equivalent coordinates. -/
def wrapped (id : OverscaledTileID) : OverscaledTileID := { id with wrap := 0 }

end OverscaledTileID

/-- Modelled from the spec (S3, Tile): one fetched/loading/cached map unit.
Only the fields the retention/eviction algorithms inspect are kept: the
owning coordinate, lifecycle state and active-reference count `uses`. -/
structure Tile where
  tileID : OverscaledTileID
  state : TileState
  uses : Nat
deriving DecidableEq, Repr

/-- A tile has data iff its state does (spec S4.2 `hasData`). -/
def Tile.hasData (t : Tile) : Bool := t.state.hasData

/-- A tile was requested iff its state says so. -/
def Tile.wasRequested (t : Tile) : Bool := t.state.wasRequested

/-- The resident tile mapping, keyed by coordinate (insertion-ordered
association list, mirroring a JS object keyed by tile keys). -/
abbrev TileMap := List (OverscaledTileID × Tile)

/-- Key lookup in the resident map. -/
def lookupTile : TileMap → OverscaledTileID → Option Tile
  | [], _ => none
  | (k, t) :: rest, id => if k = id then some t else lookupTile rest id

/-- Key insert/replace in the resident map (replace keeps the original
position, as JS object assignment does; new keys append). -/
def insertTile : TileMap → OverscaledTileID → Tile → TileMap
  | [], id, t => [(id, t)]
  | (k, u) :: rest, id, t =>
    if k = id then (k, t) :: rest else (k, u) :: insertTile rest id t

/-- Key removal from the resident map. -/
def eraseTile : TileMap → OverscaledTileID → TileMap
  | [], _ => []
  | (k, u) :: rest, id =>
    if k = id then eraseTile rest id else (k, u) :: eraseTile rest id

/-- The bounded LRU cache contents: oldest entry first, newest last, keyed by
wrapped-equivalent coordinate (spec S3, BoundedTileCache). -/
abbrev CacheList := List (OverscaledTileID × Tile)

/-- Modelled from the spec (BoundedTileCache `getAndRemove`): remove and
return the entry for the wrapped-equivalent key, leaving the rest in order;
a miss leaves the cache unchanged. -/
def cacheGetAndRemove : CacheList → OverscaledTileID → Option Tile × CacheList
  | [], _ => (none, [])
  | (k, t) :: rest, id =>
    if k = id.wrapped then (some t, rest)
    else
      let r := cacheGetAndRemove rest id
      (r.1, (k, t) :: r.2)

/-- Cache membership test for the wrapped-equivalent key. -/
def cacheHas (c : CacheList) (id : OverscaledTileID) : Bool :=
  c.any (fun e => e.1 = id.wrapped)

/-- Modelled from the spec (BoundedTileCache `add`): append as
most-recently-used; if the capacity is exceeded evict the oldest entries
first. -/
def cacheAdd (c : CacheList) (id : OverscaledTileID) (t : Tile) (maxSize : Nat) : CacheList :=
  let c' := c ++ [(id.wrapped, t)]
  c'.drop (c'.length - maxSize)

/-- Modelled from the unit tests (`findLoadedParent` / "retains parents"):
`get` on the bounded cache returns the entry and re-inserts it as
most-recently-used — the entry stays in the cache (the tests assert
`cache.order.length` is unchanged after a hit). -/
def cacheGet (c : CacheList) (id : OverscaledTileID) : Option Tile × CacheList :=
  match cacheGetAndRemove c id with
  | (some t, c') => (some t, c' ++ [(id.wrapped, t)])
  | (none, _) => (none, c)

/-- Modelled from the spec (S6, Metadata source and Loader): the source
parameters the manager consumes, plus the synchronous effect of the loader
collaborator — `load id` is the state a freshly created tile ends in after
`loadTile` ran its callback (the unit tests' mocked loaders set the state
synchronously). -/
structure Env where
  minzoom : Nat
  maxzoom : Nat
  tileSize : Nat
  load : OverscaledTileID → TileState

/-- Modelled from the spec (S4.5, TilePyramidManager state): resident tiles,
the bounded cache and its capacity, armed reload timers (by coordinate), the
memoized loaded-parent lookup cache, and the source lifecycle flags. -/
structure SCState where
  tiles : TileMap
  cache : CacheList
  cacheMax : Nat
  timers : List OverscaledTileID
  loadedParentTiles : List (OverscaledTileID × Option Tile)
  sourceLoaded : Bool
  sourceErrored : Bool
deriving DecidableEq, Repr

/-- Result of `addTile`: the resident tile for the coordinate afterwards,
the new manager state, and the loader invocations made. -/
structure AddResult where
  tile : Tile
  state : SCState
  loads : List OverscaledTileID
deriving Repr

/-- Modelled from the spec (S4.5 `addTile`) and the add/remove unit tests:
an exactly matching resident tile is reused as-is (coordinate identity is
wrap-sensitive); otherwise the bounded cache is consulted by
wrapped-equivalent key and a hit is moved back to resident (reassigning its
coordinate and re-arming its reload timer); otherwise a fresh tile is
created and the loader is invoked.  Adding increments `uses`. -/
def addTile (env : Env) (s : SCState) (id : OverscaledTileID) : AddResult :=
  match lookupTile s.tiles id with
  | some t =>
    let t' := { t with uses := t.uses + 1 }
    ⟨t', { s with tiles := insertTile s.tiles id t' }, []⟩
  | none =>
    match cacheGetAndRemove s.cache id with
    | (some t, cache') =>
      let t' := { t with tileID := id, uses := t.uses + 1 }
      let s' := { s with cache := cache'
                         tiles := insertTile s.tiles id t'
                         timers := if s.timers.contains id then s.timers else id :: s.timers }
      ⟨t', s', []⟩
    | (none, _) =>
      let t : Tile := ⟨id, env.load id, 1⟩
      ⟨t, { s with tiles := insertTile s.tiles id t }, [id]⟩

/-- Result of `removeTile`: the new manager state and the abort/unload
collaborator invocations made. -/
structure RemoveResult where
  state : SCState
  aborts : List OverscaledTileID
  unloads : List OverscaledTileID
deriving Repr

/-- Modelled from the spec (S4.5 `removeTile`) and the remove unit tests:
removing a resident tile decrements `uses`, drops it from the resident map
and cancels its reload timer; once `uses` reaches zero, a tile with data is
evicted into the bounded cache while a dataless tile is aborted and
unloaded through the loader collaborator. -/
def removeTile (s : SCState) (id : OverscaledTileID) : RemoveResult :=
  match lookupTile s.tiles id with
  | none => ⟨s, [], []⟩
  | some t =>
    let t' := { t with uses := t.uses - 1 }
    let s' := { s with tiles := eraseTile s.tiles id
                       timers := s.timers.filter (fun k => decide (k ≠ id)) }
    if 0 < t'.uses then ⟨s', [], []⟩
    else if t'.hasData then
      ⟨{ s' with cache := cacheAdd s'.cache t'.tileID t' s'.cacheMax }, [], []⟩
    else
      ⟨s', [id], [id]⟩

/-! ## The retention resolver -/

/-- Modelled from the spec: the maximum number of zoom levels the ascent
may climb above the ideal zoom. -/
def maxOverzooming : Nat := 10

/-- Modelled from the spec: the maximum number of zoom levels below the
ideal zoom at which loaded descendants are still retained as cover ("over
maxUnderzooming" descendants are ignored, per the LOD-cover unit test). -/
def maxUnderzooming : Nat := 3

/-- Insert a coordinate into the retained set (insertion-ordered,
duplicate-free, mirroring `retain[key] = id` on a JS object). -/
def retainInsert (r : List OverscaledTileID) (id : OverscaledTileID) : List OverscaledTileID :=
  if r.contains id then r else r ++ [id]

/-- The recursion core of `topmostWalk`; the fuel argument always equals
the current coordinate's `overscaledZ` (each step moves one level toward
the root), so the out-of-fuel branch coincides with the walk's stop
condition. -/
def topmostWalkAux (tiles : TileMap) (zoom : Nat) :
    Nat → OverscaledTileID → OverscaledTileID → OverscaledTileID
  | 0, _, topmost => topmost
  | fuel + 1, curID, topmost =>
    if zoom + 1 < curID.overscaledZ then
      let parentID := curID.scaledTo (curID.overscaledZ - 1)
      match lookupTile tiles parentID with
      | none => topmost
      | some t =>
        topmostWalkAux tiles zoom fuel parentID (if t.hasData then parentID else topmost)
    else topmost

/-- Modelled from the retention unit tests ("retains all loaded children",
"retains children for LOD cover"): starting from a loaded descendant, walk
toward the root while parents are resident, remembering the topmost loaded
coordinate on the walk.  (The walk follows coordinate keys; the resident
map stores each tile under its own coordinate.) -/
def topmostWalk (tiles : TileMap) (zoom : Nat) (curID topmost : OverscaledTileID) :
    OverscaledTileID :=
  topmostWalkAux tiles zoom curID.overscaledZ curID topmost

/-- The recursion core of `ancestorNeeds`; the fuel argument always equals
the current coordinate's `overscaledZ`. -/
def ancestorNeedsAux (missing : List OverscaledTileID) (zoom : Nat) :
    Nat → OverscaledTileID → Bool
  | 0, _ => false
  | fuel + 1, curID =>
    if zoom < curID.overscaledZ then
      let p := curID.scaledTo (curID.overscaledZ - 1)
      if missing.contains p then true else ancestorNeedsAux missing zoom fuel p
    else false

/-- Modelled from the retention unit tests: does some strict ancestor of
`curID` above `zoom` belong to the missing-ideal set?  (Decides whether a
loaded descendant is retained as cover.) -/
def ancestorNeeds (missing : List OverscaledTileID) (zoom : Nat)
    (curID : OverscaledTileID) : Bool :=
  ancestorNeedsAux missing zoom curID.overscaledZ curID

/-- One resident-map entry of the loaded-descendant retention scan. -/
def retainChildStep (tiles : TileMap) (missing : List OverscaledTileID)
    (zoom maxCoveringZoom : Nat) (retain : List OverscaledTileID)
    (e : OverscaledTileID × Tile) : List OverscaledTileID :=
  if retain.contains e.1 || !e.2.hasData || e.1.overscaledZ ≤ zoom ||
      maxCoveringZoom < e.1.overscaledZ then
    retain
  else
    let topmost := topmostWalk tiles zoom e.1 e.1
    if ancestorNeeds missing zoom topmost then retainInsert retain topmost else retain

/-- Modelled from the spec (S4.4 step 2) as pinned by the retention unit
tests: scan every resident tile with data between the ideal zoom and
`maxCoveringZoom` and retain the topmost loaded coordinate of its lineage
whenever some missing ideal tile lies above it. -/
def retainLoadedChildren (tiles : TileMap) (missing : List OverscaledTileID)
    (zoom maxCoveringZoom : Nat) (retain : List OverscaledTileID) : List OverscaledTileID :=
  tiles.foldl (retainChildStep tiles missing zoom maxCoveringZoom) retain

/-- Accumulator of the per-ideal reconciliation pass: the retained set, the
memoized set of already-probed ancestor keys, the ancestor and overzoomed-
child lookups performed (in order), the evolving manager state and the
loader invocations made. -/
structure RetainAcc where
  retain : List OverscaledTileID
  checked : List OverscaledTileID
  parentProbes : List OverscaledTileID
  childProbes : List OverscaledTileID
  st : SCState
  loads : List OverscaledTileID
deriving Repr

/-- Modelled from the spec (S4.4 step 3) as pinned by the retention unit
tests: the ancestor ascent for one ideal coordinate over the descending
list of target zooms.  Each ancestor key is probed at most once per pass
(`checked` memoization, shared across ideals); a missing ancestor is
requested only when the tile below it on the route was already requested;
a found (or requested) ancestor is retained, and the ascent stops at the
first ancestor with data. -/
def ascend (env : Env) (idealID : OverscaledTileID) :
    List Nat → Bool → RetainAcc → RetainAcc
  | [], _, acc => acc
  | oz :: rest, pwr, acc =>
    let pid := idealID.scaledTo oz
    if acc.checked.contains pid then acc
    else
      let acc1 := { acc with checked := pid :: acc.checked,
                             parentProbes := acc.parentProbes ++ [pid] }
      match lookupTile acc1.st.tiles pid with
      | some t =>
        let acc2 :=
          if pwr || t.hasData then { acc1 with retain := retainInsert acc1.retain pid }
          else acc1
        if t.hasData then acc2 else ascend env idealID rest t.wasRequested acc2
      | none =>
        if pwr then
          let r := addTile env acc1.st pid
          let acc2 := { acc1 with st := r.state, loads := acc1.loads ++ r.loads,
                                  retain := retainInsert acc1.retain pid }
          if r.tile.hasData then acc2 else ascend env idealID rest r.tile.wasRequested acc2
        else
          ascend env idealID rest pwr acc1

/-- The descending list of ascent target zooms, from one above the ideal's
detail level down to `minCoveringZoom`. -/
def ascentTargets (idealOz minCoveringZoom : Nat) : List Nat :=
  (List.range' minCoveringZoom (idealOz - minCoveringZoom)).reverse

/-- Modelled from the spec (S4.4 steps 1-3) as pinned by the retention unit
tests: the per-ideal branch of the reconciliation pass.  An ideal tile with
data needs no substitution; an overzoomed ideal (canonical zoom at the
source maxzoom) probes its single overscaled child and is covered by it
when that child has data; otherwise, if its four children are already
retained it is fully covered; in every remaining case the ancestor ascent
runs. -/
def processIdeal (env : Env) (minCoveringZoom : Nat) (acc : RetainAcc)
    (c : OverscaledTileID) : RetainAcc :=
  match lookupTile acc.st.tiles c with
  | none => acc
  | some tile =>
    if tile.hasData then acc
    else if env.maxzoom ≤ c.z then
      match c.children env.maxzoom with
      | [] => acc
      | child :: _ =>
        let acc1 := { acc with childProbes := acc.childProbes ++ [child] }
        match lookupTile acc1.st.tiles child with
        | some ct =>
          if ct.hasData then { acc1 with retain := retainInsert acc1.retain child }
          else ascend env c (ascentTargets c.overscaledZ minCoveringZoom) tile.wasRequested acc1
        | none =>
          ascend env c (ascentTargets c.overscaledZ minCoveringZoom) tile.wasRequested acc1
    else
      if (c.children env.maxzoom).all (fun k => acc.retain.contains k) then acc
      else ascend env c (ascentTargets c.overscaledZ minCoveringZoom) tile.wasRequested acc

/-- Accumulator of the first reconciliation loop (over the ideal set). -/
structure Phase1Acc where
  st : SCState
  retain : List OverscaledTileID
  missing : List OverscaledTileID
  loads : List OverscaledTileID
deriving Repr

/-- Modelled from the spec (S4.4 step 4) as pinned by the retention unit
tests: every ideal coordinate is added as a resident tile and retained
(even if not loaded); ideals still without data are recorded as missing
(candidates for loaded-descendant cover) when the ideal zoom lies below the
source maxzoom. -/
def phase1Step (env : Env) (minZoom : Nat) (acc : Phase1Acc) (c : OverscaledTileID) :
    Phase1Acc :=
  let r := addTile env acc.st c
  let retain' := retainInsert acc.retain c
  if r.tile.hasData then ⟨r.state, retain', acc.missing, acc.loads ++ r.loads⟩
  else if minZoom < env.maxzoom then
    ⟨r.state, retain', acc.missing ++ [c], acc.loads ++ r.loads⟩
  else ⟨r.state, retain', acc.missing, acc.loads ++ r.loads⟩

/-- Result of a full retention pass. -/
structure RetainResult where
  retain : List OverscaledTileID
  parentProbes : List OverscaledTileID
  childProbes : List OverscaledTileID
  state : SCState
  loads : List OverscaledTileID
deriving Repr

/-- The minimum requested detail level over the ideal set (the JS
`reduce` over `overscaledZ`, seeded with the first ideal's level). -/
def minIdealZoom (ideals : List OverscaledTileID) (init : Nat) : Nat :=
  ideals.foldl (fun m id => min m id.overscaledZ) init

/-- The first loop of the pass: add and retain every ideal tile, recording
the missing ones. -/
def phase1Run (env : Env) (s : SCState) (ideals : List OverscaledTileID)
    (minZoom : Nat) : Phase1Acc :=
  ideals.foldl (phase1Step env minZoom) ⟨s, [], [], []⟩

/-- Seed the per-ideal loop's accumulator from the first loop's result,
after the loaded-descendant scan has extended the retained set. -/
def RetainAcc.ofPhase1 (p1 : Phase1Acc) (minZoom maxCoveringZoom : Nat) : RetainAcc :=
  ⟨retainLoadedChildren p1.st.tiles p1.missing minZoom maxCoveringZoom p1.retain,
   [], [], [], p1.st, p1.loads⟩

/-- The per-ideal loop of the pass (children probe, then memoized ancestor
ascent). -/
def phase3Run (env : Env) (ideals : List OverscaledTileID) (minCoveringZoom : Nat)
    (acc0 : RetainAcc) : RetainAcc :=
  ideals.foldl (processIdeal env minCoveringZoom) acc0

/-- Package the final accumulator as the pass result. -/
def RetainResult.ofAcc (a : RetainAcc) : RetainResult :=
  ⟨a.retain, a.parentProbes, a.childProbes, a.st, a.loads⟩

/-- The three-phase body of the reconciliation pass, with the zoom
parameters already computed. -/
def retentionPass (env : Env) (s : SCState) (ideals : List OverscaledTileID)
    (minZoom minCoveringZoom maxCoveringZoom : Nat) : RetainResult :=
  RetainResult.ofAcc (phase3Run env ideals minCoveringZoom
    (RetainAcc.ofPhase1 (phase1Run env s ideals minZoom) minZoom maxCoveringZoom))

/-- Modelled from the spec (S4.4, RetentionResolver) as pinned by the
retention unit tests: the full reconciliation pass.  Adds and retains every
ideal tile, retains loaded descendants of missing ideals up to
`maxCoveringZoom`, then runs the memoized ancestor ascent per ideal down to
`minCoveringZoom` (never below the source minzoom). -/
def updateRetainedTiles (env : Env) (s : SCState) (ideals : List OverscaledTileID) :
    RetainResult :=
  match ideals with
  | [] => ⟨[], [], [], s, []⟩
  | c0 :: _ =>
    retentionPass env s ideals
      (minIdealZoom ideals c0.overscaledZ)
      (max (c0.overscaledZ - maxOverzooming) env.minzoom)
      (max (c0.overscaledZ + maxUnderzooming) env.minzoom)

/-! ## Loaded-parent search -/

/-- Modelled from the spec (S4.5 `findLoadedParent`) as pinned by the unit
tests: a single loaded-tile lookup consults the resident map first and only
then the bounded cache (whose `get` keeps the entry, re-inserted as
most-recently-used). -/
def getLoadedTile (s : SCState) (id : OverscaledTileID) : Option Tile × SCState :=
  match lookupTile s.tiles id with
  | some t =>
    if t.hasData then (some t, s)
    else
      let r := cacheGet s.cache id
      (r.1, { s with cache := r.2 })
  | none =>
    let r := cacheGet s.cache id
    (r.1, { s with cache := r.2 })

/-- Lookup in the memoized loaded-parent cache. -/
def lookupMemo : List (OverscaledTileID × Option Tile) → OverscaledTileID → Option (Option Tile)
  | [], _ => none
  | (k, v) :: rest, id => if k = id then some v else lookupMemo rest id

/-- The ancestor-probing loop of `findLoadedParent` over the descending
list of target zooms, returning at the first (nearest) hit. -/
def findLoadedParentLoop (id : OverscaledTileID) :
    List Nat → SCState → Option Tile × SCState
  | [], s => (none, s)
  | z :: rest, s =>
    let r := getLoadedTile s (id.scaledTo z)
    match r.1 with
    | some t => (some t, r.2)
    | none => findLoadedParentLoop id rest r.2

/-- Modelled from the spec (S4.5 `findLoadedParent`) as pinned by the unit
tests: consult the memoized loaded-parent cache first; otherwise probe each
ancestor level from nearest to `minCoveringZoom`, resident tiles before the
bounded cache at each level. -/
def findLoadedParent (s : SCState) (id : OverscaledTileID) (minCoveringZoom : Nat) :
    Option Tile × SCState :=
  match lookupMemo s.loadedParentTiles id with
  | some (some p) =>
    if minCoveringZoom ≤ p.tileID.overscaledZ then (some p, s) else (none, s)
  | some none => (none, s)
  | none => findLoadedParentLoop id (ascentTargets id.overscaledZ minCoveringZoom) s

/-! ## Cache sizing, spatial query, loaded flag -/

/-- Ceiling division on naturals. -/
def ceilDivNat (a b : Nat) : Nat := (a + b - 1) / b

/-- Modelled from the spec (S3, BoundedTileCache): capacity
`ceil(viewportWidth/tileSize + 1) * ceil(viewportHeight/tileSize + 1) * 5`. -/
def cacheCapacity (width height tileSize : Nat) : Nat :=
  (ceilDivNat width tileSize + 1) * (ceilDivNat height tileSize + 1) * 5

/-- Modelled from the spec: recompute the bounded cache capacity whenever
the viewport or tile size changes. -/
def updateCacheSize (s : SCState) (width height tileSize : Nat) : SCState :=
  { s with cacheMax := cacheCapacity width height tileSize }

/-- Modelled from the spec (S4.5 `tilesIn`): intersect a query region
against every resident tile, collecting the per-tile intersection results.
The screen-to-tile-space geometry lives in an external transform
collaborator, abstracted as the `intersect` argument. -/
def tilesIn {β : Type} (s : SCState) (intersect : OverscaledTileID → Tile → Option β) :
    List β :=
  s.tiles.foldr
    (fun e acc =>
      match intersect e.1 e.2 with
      | some r => r :: acc
      | none => acc) []

/-- Modelled from the spec (S7, error handling) as pinned by the unit
tests: the public `loaded` predicate.  A source-level load error is
terminal (`loaded` is true); before the source metadata arrives `loaded` is
false; afterwards every resident tile must have finished (state `loaded` or
`errored` — tile errors are terminal too). -/
def scLoaded (s : SCState) : Bool :=
  if s.sourceErrored then true
  else if !s.sourceLoaded then false
  else s.tiles.all (fun e => e.2.state = TileState.loaded || e.2.state = TileState.errored)

/-- The manager state right after construction, before any source data has
loaded: no resident tiles, empty cache, no timers, source not loaded. -/
def initialState : SCState := ⟨[], [], 0, [], [], false, false⟩

/-! ## Specification-side reference definition (for the refinement claim
about the ascent) -/

/-- Modelled from the spec (S4.4 step 3, the spec's words): the ancestor
keys a single branch's ascent is expected to probe — walking parent by
parent over the given descending zoom targets and stopping right after the
first ancestor that is resident with data. -/
def specAscentProbes (tiles : TileMap) (idealID : OverscaledTileID) :
    List Nat → List OverscaledTileID
  | [] => []
  | z :: rest =>
    let pid := idealID.scaledTo z
    pid ::
      (match lookupTile tiles pid with
       | some t => if t.hasData then [] else specAscentProbes tiles idealID rest
       | none => specAscentProbes tiles idealID rest)

/-! ## Concrete scenarios drawn from the unit tests -/

/-- A resident tile with one active use. -/
def tileOf (id : OverscaledTileID) (st : TileState) : Tile := ⟨id, st, 1⟩

/-- A manager state holding the given resident tiles, with an empty bounded
cache, source metadata loaded. -/
def stateOf (l : List (OverscaledTileID × TileState)) : SCState :=
  ⟨l.map (fun e => (e.1, tileOf e.1 e.2)), [], 0, [], [], true, false⟩

/-- The default unit-test environment: minzoom 0, maxzoom 14, tileSize 512,
with a loader whose tiles stay `loading` (the mock loader that never
finishes). -/
def envLoading : Env := ⟨0, 14, 512, fun _ => TileState.loading⟩

/-- The unit-test environment whose mock loader errors every tile except
`1/1/1`, which loads (test "adds parent tile if ideal tile errors"). -/
def envMixed : Env :=
  ⟨0, 14, 512, fun id => if id = ⟨1, 0, 1, 1, 1⟩ then TileState.loaded else TileState.errored⟩

/-- The ideal coordinate of the all-four-children unit test
("don't load parent if all immediate children are loaded"): `2/1/1`. -/
def idealAllFour : OverscaledTileID := ⟨2, 0, 2, 1, 1⟩

/-- The state of the all-four-children unit test: the four `z3` children of
`2/1/1` resident and loaded. -/
def stateAllFour : SCState :=
  stateOf [(⟨3, 0, 3, 2, 2⟩, .loaded), (⟨3, 0, 3, 3, 2⟩, .loaded),
           (⟨3, 0, 3, 2, 3⟩, .loaded), (⟨3, 0, 3, 3, 3⟩, .loaded)]

/-- The state of the "use parent tile when ideal tile is not loaded" unit
test after its ideal tile loads: ideal `1/0/1` loaded, root loaded. -/
def stateLoadedIdeal : SCState :=
  stateOf [(⟨1, 0, 1, 0, 1⟩, .loaded), (⟨0, 0, 0, 0, 0⟩, .loaded)]

/-- The state of the "use parent tile when ideal tile is not loaded" unit
test before its ideal tile loads: ideal `1/0/1` loading, root loaded. -/
def stateLoadingIdeal : SCState :=
  stateOf [(⟨1, 0, 1, 0, 1⟩, .loading), (⟨0, 0, 0, 0, 0⟩, .loaded)]

/-- The loaded `1/0/0` tile the `findLoadedParent` unit test places in the
bounded cache. -/
def cachedParentTile : Tile := ⟨⟨1, 0, 1, 0, 0⟩, .loaded, 0⟩

/-- The state of the `findLoadedParent` "retains parents" unit test: no
resident tiles, the loaded `1/0/0` tile in the bounded cache. -/
def stateCachedParent : SCState :=
  ⟨[], [(⟨1, 0, 1, 0, 0⟩, cachedParentTile)], 45, [], [], true, false⟩

/-- The state for the removal unit tests: a loaded `0/0/0` tile and a
loading `1/0/0` tile, each with one use, an armed reload timer each, and
room in the bounded cache. -/
def stateRemove : SCState :=
  ⟨[(⟨0, 0, 0, 0, 0⟩, tileOf ⟨0, 0, 0, 0, 0⟩ .loaded),
    (⟨1, 0, 1, 0, 0⟩, tileOf ⟨1, 0, 1, 0, 0⟩ .loading)],
   [], 20, [⟨0, 0, 0, 0, 0⟩, ⟨1, 0, 1, 0, 0⟩], [], true, false⟩

/-- The state for the wrapped-add unit test ("does not reuse wrapped
tile"): the wrap-0 world-copy of `0/0/0` resident and loaded. -/
def stateWrap : SCState :=
  stateOf [(⟨0, 0, 0, 0, 0⟩, .loaded)]

/-- The state of the "loaded() true after tile error" unit test: source
metadata loaded and every requested tile errored. -/
def stateErrored : SCState :=
  stateOf [(⟨0, 0, 0, 0, 0⟩, .errored)]

/-- The state of the "don't use tiles below minzoom" unit test: a loaded
`1/0/0` tile resident while the source minzoom is 2. -/
def stateBelowMinzoom : SCState :=
  stateOf [(⟨1, 0, 1, 0, 0⟩, .loaded)]

/-- A minzoom-2 variant of the unit-test environment. -/
def envMinzoom2 : Env := ⟨2, 14, 512, fun _ => TileState.loading⟩

/-! ## Helper lemmas: association lists, folds, retained sets -/

theorem contains_iff_mem {α : Type} [DecidableEq α] (l : List α) (a : α) :
    l.contains a = true ↔ a ∈ l := by
  constructor
  · intro h; exact List.elem_iff.mp h
  · intro h; exact List.elem_iff.mpr h

theorem lookupTile_some_mem {m : TileMap} {id : OverscaledTileID} {t : Tile}
    (h : lookupTile m id = some t) : (id, t) ∈ m := by
  induction m with
  | nil => simp [lookupTile] at h
  | cons e rest ih =>
    obtain ⟨k, u⟩ := e
    by_cases hk : k = id
    · subst hk
      simp [lookupTile] at h
      simp [h]
    · simp [lookupTile, hk] at h
      exact List.mem_cons_of_mem _ (ih h)

theorem lookupTile_insertTile_self (m : TileMap) (id : OverscaledTileID) (t : Tile) :
    lookupTile (insertTile m id t) id = some t := by
  induction m with
  | nil => simp [insertTile, lookupTile]
  | cons e rest ih =>
    obtain ⟨k, u⟩ := e
    by_cases hk : k = id <;> simp [insertTile, lookupTile, hk, ih]

theorem lookupTile_insertTile_ne (m : TileMap) (id k : OverscaledTileID) (t : Tile)
    (h : k ≠ id) : lookupTile (insertTile m id t) k = lookupTile m k := by
  have h' : ¬id = k := fun hh => h hh.symm
  induction m with
  | nil => simp [insertTile, lookupTile, h']
  | cons e rest ih =>
    obtain ⟨k', u⟩ := e
    by_cases hk : k' = id
    · subst hk
      have hk2 : ¬k' = k := h'
      simp [insertTile, lookupTile, hk2]
    · by_cases hk2 : k' = k <;> simp [insertTile, lookupTile, hk, hk2, h, ih]

theorem mem_insertTile {m : TileMap} {id : OverscaledTileID} {t : Tile}
    {e : OverscaledTileID × Tile} (h : e ∈ insertTile m id t) :
    e = (id, t) ∨ e ∈ m := by
  induction m with
  | nil => simpa [insertTile] using h
  | cons f rest ih =>
    obtain ⟨k, u⟩ := f
    by_cases hk : k = id
    · subst hk
      simp only [insertTile, if_pos rfl] at h
      rcases List.mem_cons.mp h with h | h
      · left; simpa using h
      · right; exact List.mem_cons_of_mem _ h
    · simp only [insertTile, if_neg hk] at h
      rcases List.mem_cons.mp h with h | h
      · right; simp [h]
      · rcases ih h with h' | h'
        · left; exact h'
        · right; exact List.mem_cons_of_mem _ h'

theorem foldl_preserve {α β : Type} (P : β → Prop) (f : β → α → β) :
    ∀ (l : List α) (init : β), P init → (∀ acc a, a ∈ l → P acc → P (f acc a)) →
      P (l.foldl f init)
  | [], _, h0, _ => h0
  | a :: l, init, h0, hstep => by
    simp only [List.foldl_cons]
    exact foldl_preserve P f l (f init a) (hstep init a (by simp) h0)
      (fun acc b hb hacc => hstep acc b (by simp [hb]) hacc)

theorem foldl_establish {α β : Type} (P : β → Prop) (f : β → α → β) :
    ∀ (l : List α) (init : β) (e : α), e ∈ l → (∀ acc, P (f acc e)) →
      (∀ acc a, a ∈ l → P acc → P (f acc a)) → P (l.foldl f init)
  | [], _, e, he, _, _ => absurd he (List.not_mem_nil e)
  | a :: l, init, e, he, hest, hstep => by
    simp only [List.foldl_cons]
    rcases List.mem_cons.mp he with h | h
    · subst h
      exact foldl_preserve P f l (f init e) (hest init)
        (fun acc b hb hacc => hstep acc b (by simp [hb]) hacc)
    · exact foldl_establish P f l (f init a) e h hest
        (fun acc b hb hacc => hstep acc b (by simp [hb]) hacc)

theorem foldl_fixed {α β : Type} (f : β → α → β) :
    ∀ (l : List α) (init : β), (∀ acc a, a ∈ l → f acc a = acc) → l.foldl f init = init
  | [], _, _ => rfl
  | a :: l, init, h => by
    simp only [List.foldl_cons, h init a (by simp)]
    exact foldl_fixed f l init (fun acc b hb => h acc b (by simp [hb]))

theorem retainInsert_contains_self (r : List OverscaledTileID) (id : OverscaledTileID) :
    (retainInsert r id).contains id = true := by
  unfold retainInsert
  split
  · assumption
  · rw [contains_iff_mem]; simp

theorem retainInsert_contains_of {r : List OverscaledTileID} {k : OverscaledTileID}
    (id : OverscaledTileID) (h : r.contains k = true) :
    (retainInsert r id).contains k = true := by
  unfold retainInsert
  split
  · exact h
  · rw [contains_iff_mem] at h ⊢
    simp [h]

theorem mem_retainInsert {r : List OverscaledTileID} {k id : OverscaledTileID}
    (h : k ∈ retainInsert r id) : k ∈ r ∨ k = id := by
  unfold retainInsert at h
  split at h
  · exact Or.inl h
  · simpa using h

theorem retainInsert_mem_self (r : List OverscaledTileID) (id : OverscaledTileID) :
    id ∈ retainInsert r id := by
  rw [← contains_iff_mem]
  exact retainInsert_contains_self r id

theorem retainInsert_nil (id : OverscaledTileID) : retainInsert [] id = [id] := rfl

/-! ## Helper lemmas: coordinates -/

@[simp] theorem scaledTo_overscaledZ (id : OverscaledTileID) (t : Nat) :
    (id.scaledTo t).overscaledZ = t := by
  unfold OverscaledTileID.scaledTo
  split <;> rfl

@[simp] theorem scaledTo_wrap (id : OverscaledTileID) (t : Nat) :
    (id.scaledTo t).wrap = id.wrap := by
  unfold OverscaledTileID.scaledTo
  split <;> rfl

theorem scaledTo_z (id : OverscaledTileID) (t : Nat) :
    (id.scaledTo t).z = min t id.z := by
  unfold OverscaledTileID.scaledTo
  split <;> simp <;> omega

/-! ## Helper lemmas: the cache and `addTile` -/

theorem cacheGetAndRemove_none_of_not_has {c : CacheList} {id : OverscaledTileID}
    (h : cacheHas c id = false) : cacheGetAndRemove c id = (none, c) := by
  induction c with
  | nil => rfl
  | cons e rest ih =>
    obtain ⟨k, t⟩ := e
    simp only [cacheHas, List.any_cons, Bool.or_eq_false_iff] at h
    obtain ⟨h1, h2⟩ := h
    have h1' : ¬k = id.wrapped := by simpa using h1
    have := ih (by simpa [cacheHas] using h2)
    simp [cacheGetAndRemove, h1', this]

theorem addTile_resident (env : Env) (s : SCState) (id : OverscaledTileID) (t : Tile)
    (hres : lookupTile s.tiles id = some t) :
    addTile env s id =
      ⟨{ t with uses := t.uses + 1 },
       { s with tiles := insertTile s.tiles id { t with uses := t.uses + 1 } }, []⟩ := by
  unfold addTile
  simp [hres]

theorem addTile_fresh (env : Env) (s : SCState) (id : OverscaledTileID)
    (hres : lookupTile s.tiles id = none) (hc : cacheHas s.cache id = false) :
    addTile env s id =
      ⟨⟨id, env.load id, 1⟩,
       { s with tiles := insertTile s.tiles id ⟨id, env.load id, 1⟩ }, [id]⟩ := by
  unfold addTile
  simp [hres, cacheGetAndRemove_none_of_not_has hc]

theorem addTile_cached (env : Env) (s : SCState) (id : OverscaledTileID) (t : Tile)
    (c' : CacheList) (hres : lookupTile s.tiles id = none)
    (hc : cacheGetAndRemove s.cache id = (some t, c')) :
    (addTile env s id).tile = { t with tileID := id, uses := t.uses + 1 } ∧
    (addTile env s id).loads = [] := by
  unfold addTile
  simp [hres, hc]

theorem addTile_lookup_self (env : Env) (s : SCState) (id : OverscaledTileID) :
    lookupTile (addTile env s id).state.tiles id = some (addTile env s id).tile := by
  unfold addTile
  rcases h : lookupTile s.tiles id with _ | t
  · rcases hc : cacheGetAndRemove s.cache id with ⟨o, c'⟩
    rcases o with _ | t2 <;> simp [h, hc, lookupTile_insertTile_self]
  · simp [h, lookupTile_insertTile_self]

theorem addTile_lookup_ne (env : Env) (s : SCState) (id k : OverscaledTileID)
    (h : k ≠ id) :
    lookupTile (addTile env s id).state.tiles k = lookupTile s.tiles k := by
  unfold addTile
  rcases hr : lookupTile s.tiles id with _ | t
  · rcases hc : cacheGetAndRemove s.cache id with ⟨o, c'⟩
    rcases o with _ | t2 <;> simp [hr, hc, lookupTile_insertTile_ne _ _ _ _ h]
  · simp [hr, lookupTile_insertTile_ne _ _ _ _ h]

theorem addTile_mem_tiles {env : Env} {s : SCState} {id : OverscaledTileID}
    {e : OverscaledTileID × Tile} (h : e ∈ (addTile env s id).state.tiles) :
    e.1 = id ∨ e ∈ s.tiles := by
  unfold addTile at h
  rcases hr : lookupTile s.tiles id with _ | t
  · rcases hc : cacheGetAndRemove s.cache id with ⟨o, c'⟩
    rcases o with _ | t2 <;> rw [hr, hc] at h <;> simp only at h <;>
      rcases mem_insertTile h with h' | h' <;> simp [h']
  · rw [hr] at h
    simp only at h
    rcases mem_insertTile h with h' | h' <;> simp [h']

theorem addTile_cache_empty (env : Env) (s : SCState) (id : OverscaledTileID)
    (hc : s.cache = []) : (addTile env s id).state.cache = [] := by
  unfold addTile
  rcases hr : lookupTile s.tiles id with _ | t
  · simp [hr, hc, cacheGetAndRemove]
  · simp [hr, hc]

/-! ## Helper lemmas: the loaded-children scan with no missing ideals -/

theorem ancestorNeedsAux_nil (zoom : Nat) :
    ∀ (fuel : Nat) (id : OverscaledTileID), ancestorNeedsAux [] zoom fuel id = false
  | 0, _ => rfl
  | fuel + 1, id => by
    unfold ancestorNeedsAux
    split
    · have h := ancestorNeedsAux_nil zoom fuel (id.scaledTo (id.overscaledZ - 1))
      simp [h]
    · rfl

theorem ancestorNeeds_nil (zoom : Nat) (id : OverscaledTileID) :
    ancestorNeeds [] zoom id = false := ancestorNeedsAux_nil zoom _ id

theorem ancestorNeeds_unfold (missing : List OverscaledTileID) (zoom : Nat)
    (curID : OverscaledTileID) :
    ancestorNeeds missing zoom curID =
      if zoom < curID.overscaledZ then
        (if missing.contains (curID.scaledTo (curID.overscaledZ - 1)) then true
         else ancestorNeeds missing zoom (curID.scaledTo (curID.overscaledZ - 1)))
      else false := by
  unfold ancestorNeeds
  rcases hoz : curID.overscaledZ with _ | n
  · simp [ancestorNeedsAux]
  · simp only [ancestorNeedsAux, scaledTo_overscaledZ, hoz, Nat.add_sub_cancel]

theorem retainChildStep_nil (tiles : TileMap) (zoom mcz : Nat)
    (retain : List OverscaledTileID) (e : OverscaledTileID × Tile) :
    retainChildStep tiles [] zoom mcz retain e = retain := by
  unfold retainChildStep
  split
  · rfl
  · simp [ancestorNeeds_nil]

theorem retainLoadedChildren_nil (tiles : TileMap) (zoom mcz : Nat)
    (retain : List OverscaledTileID) :
    retainLoadedChildren tiles [] zoom mcz retain = retain :=
  foldl_fixed _ tiles retain (fun acc e _ => retainChildStep_nil tiles zoom mcz acc e)

theorem processIdeal_hasData {env : Env} {mcz : Nat} {acc : RetainAcc}
    {c : OverscaledTileID} {t : Tile} (h : lookupTile acc.st.tiles c = some t)
    (hd : t.hasData = true) : processIdeal env mcz acc c = acc := by
  unfold processIdeal
  simp [h, hd]

theorem minIdealZoom_single (c : OverscaledTileID) :
    minIdealZoom [c] c.overscaledZ = c.overscaledZ := by
  simp [minIdealZoom]

theorem updateRetained_single (env : Env) (s : SCState) (c : OverscaledTileID) :
    updateRetainedTiles env s [c] =
      retentionPass env s [c] (minIdealZoom [c] c.overscaledZ)
        (max (c.overscaledZ - maxOverzooming) env.minzoom)
        (max (c.overscaledZ + maxUnderzooming) env.minzoom) := rfl

/-! ## Claim C2 -/

/-- C2: for an ideal coordinate whose resident tile exists and has data,
the retention pass for that coordinate retains exactly that coordinate —
no parent or child lookup is performed, no load is issued, and no ancestor
or descendant is additionally retained. -/
theorem claim_C2 (env : Env) (s : SCState) (c : OverscaledTileID) (t : Tile)
    (hres : lookupTile s.tiles c = some t) (hdata : t.hasData = true) :
    (updateRetainedTiles env s [c]).retain = [c] ∧
    (updateRetainedTiles env s [c]).parentProbes = [] ∧
    (updateRetainedTiles env s [c]).childProbes = [] ∧
    (updateRetainedTiles env s [c]).loads = [] := by
  have hadd := addTile_resident env s c t hres
  have htile : (addTile env s c).tile.hasData = true := by
    rw [hadd]; simpa [Tile.hasData] using hdata
  have htile' : ({ t with uses := t.uses + 1 } : Tile).hasData = true := by
    simpa [Tile.hasData] using hdata
  have hp1 : phase1Run env s [c] (minIdealZoom [c] c.overscaledZ) =
      ⟨(addTile env s c).state, [c], [], []⟩ := by
    unfold phase1Run
    simp only [List.foldl_cons, List.foldl_nil]
    unfold phase1Step
    simp [hadd, htile', retainInsert_nil]
  have hacc : RetainAcc.ofPhase1 (⟨(addTile env s c).state, [c], [], []⟩ : Phase1Acc)
      (minIdealZoom [c] c.overscaledZ) (max (c.overscaledZ + maxUnderzooming) env.minzoom) =
      ⟨[c], [], [], [], (addTile env s c).state, []⟩ := by
    unfold RetainAcc.ofPhase1
    simp only [retainLoadedChildren_nil]
  have hp3 : phase3Run env [c] (max (c.overscaledZ - maxOverzooming) env.minzoom)
      ⟨[c], [], [], [], (addTile env s c).state, []⟩ =
      ⟨[c], [], [], [], (addTile env s c).state, []⟩ := by
    unfold phase3Run
    simp only [List.foldl_cons, List.foldl_nil]
    exact processIdeal_hasData (addTile_lookup_self env s c) htile
  have hfin : updateRetainedTiles env s [c] =
      RetainResult.ofAcc ⟨[c], [], [], [], (addTile env s c).state, []⟩ := by
    rw [updateRetained_single]
    unfold retentionPass
    rw [hp1, hacc, hp3]
  rw [hfin]
  exact ⟨rfl, rfl, rfl, rfl⟩

/-- Witness for C2, at the "use parent tile when ideal tile is not loaded"
unit-test state after the ideal `1/0/1` has loaded. -/
theorem claim_C2_witness :
    lookupTile stateLoadedIdeal.tiles ⟨1, 0, 1, 0, 1⟩ =
      some (tileOf ⟨1, 0, 1, 0, 1⟩ .loaded) ∧
    (updateRetainedTiles envLoading stateLoadedIdeal [⟨1, 0, 1, 0, 1⟩]).retain =
      [⟨1, 0, 1, 0, 1⟩] :=
  ⟨by decide,
   (claim_C2 envLoading stateLoadedIdeal ⟨1, 0, 1, 0, 1⟩
      (tileOf ⟨1, 0, 1, 0, 1⟩ .loaded) (by decide) (by decide)).1⟩

/-! ## Claim C6 -/

/-- C6: whenever the viewport or tile size changes, the bounded cache
capacity is recomputed as
`ceil(width/tileSize + 1) * ceil(height/tileSize + 1) * 5`; in particular a
512x512 viewport yields capacity 45 with tileSize 256, 20 with tileSize
512, and 20 with a tileSize override of 2048. -/
theorem claim_C6 :
    (∀ (s : SCState) (w h ts : Nat), 0 < ts →
        (updateCacheSize s w h ts).cacheMax =
          (⌈(w : ℚ) / ts + 1⌉ * ⌈(h : ℚ) / ts + 1⌉ * 5).toNat) ∧
    (∀ s : SCState,
        (updateCacheSize s 512 512 256).cacheMax = 45 ∧
        (updateCacheSize s 512 512 512).cacheMax = 20 ∧
        (updateCacheSize s 512 512 2048).cacheMax = 20) := by
  constructor
  · intro s w h ts hts
    have htsQ : (0 : ℚ) < (ts : ℚ) := by exact_mod_cast hts
    have key : ∀ a : Nat, ⌈(a : ℚ) / ts + 1⌉ = (((a + ts - 1) / ts : ℕ) : ℤ) + 1 := by
      intro a
      set q : ℕ := (a + ts - 1) / ts with hq
      have h1 : q * ts ≤ a + ts - 1 := Nat.div_mul_le_self _ _
      have h2 : a + ts - 1 < (q + 1) * ts := Nat.lt_mul_of_div_lt (Nat.lt_succ_self _) hts
      have hexp : (q + 1) * ts = q * ts + ts := by ring
      have ha1 : a ≤ q * ts := by omega
      rw [Int.ceil_eq_iff]
      constructor
      · push_cast
        have : ((q : ℚ)) < (a : ℚ) / ts + 1 := by
          rw [show (a : ℚ) / ts + 1 = ((a : ℚ) + ts) / ts by field_simp,
              lt_div_iff₀ htsQ]
          have : q * ts < a + ts := by omega
          exact_mod_cast this
        linarith
      · push_cast
        have : (a : ℚ) / ts ≤ (q : ℚ) := by
          rw [div_le_iff₀ htsQ]
          exact_mod_cast ha1
        linarith
    rw [key w, key h]
    have : ((((w + ts - 1) / ts : ℕ) : ℤ) + 1) * ((((h + ts - 1) / ts : ℕ) : ℤ) + 1) * 5 =
        (((w + ts - 1) / ts + 1) * ((h + ts - 1) / ts + 1) * 5 : ℕ) := by
      push_cast; ring
    rw [this, Int.toNat_natCast]
    rfl
  · intro s
    refine ⟨?_, ?_, ?_⟩ <;> rfl

/-- Witness for C6 at the unit-test viewport: 512x512 with tileSize 256. -/
theorem claim_C6_witness :
    0 < 256 ∧
    (updateCacheSize initialState 512 512 256).cacheMax =
      (⌈(512 : ℚ) / 256 + 1⌉ * ⌈(512 : ℚ) / 256 + 1⌉ * 5).toNat :=
  ⟨by norm_num, by
    have h := claim_C6.1 initialState 512 512 256 (by norm_num)
    simpa using h⟩

/-! ## Claim C7 -/

/-- C7: removing a resident tile whose usage count reaches zero branches on
data presence: a tile with data moves into the bounded cache with no
abort/unload call, while a still-loading tile is aborted exactly once and
unloaded exactly once without entering the cache; the reload timer is
cancelled either way. -/
theorem claim_C7 (s : SCState) (id : OverscaledTileID) (t : Tile)
    (hres : lookupTile s.tiles id = some t) (huses : t.uses = 1)
    (hroom : s.cache.length < s.cacheMax) :
    (t.hasData = true →
        (removeTile s id).aborts = [] ∧ (removeTile s id).unloads = [] ∧
        cacheHas (removeTile s id).state.cache t.tileID = true) ∧
    (t.state = TileState.loading →
        (removeTile s id).aborts = [id] ∧ (removeTile s id).unloads = [id] ∧
        (removeTile s id).state.cache = s.cache) ∧
    (removeTile s id).state.timers.contains id = false := by
  have hzero : ¬ 0 < ({ t with uses := t.uses - 1 } : Tile).uses := by
    simp [huses]
  have htimer : ∀ l : List OverscaledTileID,
      (l.filter (fun k => decide (k ≠ id))).contains id = false := by
    intro l
    rw [Bool.eq_false_iff]
    intro hcont
    have hm := (contains_iff_mem _ _).mp hcont
    simpa using (List.mem_filter.mp hm).2
  refine ⟨?_, ?_, ?_⟩
  · intro hd
    have hd' : ({ t with uses := t.uses - 1 } : Tile).hasData = true := by
      simpa [Tile.hasData] using hd
    have hsub : s.cache.length + 1 - s.cacheMax = 0 := by omega
    refine ⟨?_, ?_, ?_⟩
    · simp [removeTile, hres, hzero, hd']
    · simp [removeTile, hres, hzero, hd']
    · simp [removeTile, hres, hzero, hd', cacheAdd, hsub, cacheHas]
  · intro hl
    have hd' : ({ t with uses := t.uses - 1 } : Tile).hasData = false := by
      simp [Tile.hasData, hl, TileState.hasData]
    refine ⟨?_, ?_, ?_⟩ <;> simp [removeTile, hres, hzero, hd']
  · rcases hd : ({ t with uses := t.uses - 1 } : Tile).hasData <;>
      simp [removeTile, hres, hzero, hd, htimer]

/-- Witness for C7: both branches at the removal unit-test state (cached
loaded tile, aborted/unloaded loading tile; timers cancelled). -/
theorem claim_C7_witness :
    ((removeTile stateRemove ⟨0, 0, 0, 0, 0⟩).aborts = [] ∧
     cacheHas (removeTile stateRemove ⟨0, 0, 0, 0, 0⟩).state.cache ⟨0, 0, 0, 0, 0⟩ = true) ∧
    ((removeTile stateRemove ⟨1, 0, 1, 0, 0⟩).aborts = [⟨1, 0, 1, 0, 0⟩] ∧
     (removeTile stateRemove ⟨1, 0, 1, 0, 0⟩).unloads = [⟨1, 0, 1, 0, 0⟩]) ∧
    (removeTile stateRemove ⟨1, 0, 1, 0, 0⟩).state.timers.contains ⟨1, 0, 1, 0, 0⟩ = false := by
  have h0 := claim_C7 stateRemove ⟨0, 0, 0, 0, 0⟩ (tileOf ⟨0, 0, 0, 0, 0⟩ .loaded)
    (by decide) (by decide) (by decide)
  have h1 := claim_C7 stateRemove ⟨1, 0, 1, 0, 0⟩ (tileOf ⟨1, 0, 1, 0, 0⟩ .loading)
    (by decide) (by decide) (by decide)
  refine ⟨⟨(h0.1 (by decide)).1, ?_⟩, ⟨(h1.2.1 (by decide)).1, (h1.2.1 (by decide)).2.1⟩,
    h1.2.2⟩
  exact (h0.1 (by decide)).2.2

/-! ## Claim C8 -/

/-- C8: tile identity is wrap-sensitive at the add-tile boundary.  Adding a
coordinate for the same canonical cell under a different wrap, while
another wrap's tile is resident (and no wrapped-equivalent entry sits in
the bounded cache), creates a distinct tile and triggers a new load,
leaving the resident tile in place; re-requesting the exact same
(overscaledZ, wrap, canonical) tuple reuses the resident tile — or the
cached tile when it was evicted — without any reload. -/
theorem claim_C8 (env : Env) (s : SCState) (id1 : OverscaledTileID) (t1 : Tile)
    (w : Int) (hres1 : lookupTile s.tiles id1 = some t1) (ht1 : t1.tileID = id1)
    (hwrap : w ≠ id1.wrap)
    (hnres : lookupTile s.tiles { id1 with wrap := w } = none)
    (hncache : cacheHas s.cache { id1 with wrap := w } = false) :
    ((addTile env s { id1 with wrap := w }).loads = [{ id1 with wrap := w }] ∧
     (addTile env s { id1 with wrap := w }).tile ≠ t1 ∧
     lookupTile (addTile env s { id1 with wrap := w }).state.tiles id1 = some t1) ∧
    (∀ (id : OverscaledTileID) (t : Tile), lookupTile s.tiles id = some t →
        (addTile env s id).loads = [] ∧ (addTile env s id).tile.state = t.state) ∧
    (∀ (id : OverscaledTileID) (t : Tile) (c' : CacheList),
        lookupTile s.tiles id = none → cacheGetAndRemove s.cache id = (some t, c') →
        (addTile env s id).loads = [] ∧ (addTile env s id).tile.tileID = id ∧
        (addTile env s id).tile.state = t.state) := by
  have hne : id1 ≠ ({ id1 with wrap := w } : OverscaledTileID) := by
    intro h
    apply hwrap
    have := congrArg OverscaledTileID.wrap h
    simpa using this.symm
  refine ⟨?_, ?_, ?_⟩
  · rw [addTile_fresh env s _ hnres hncache]
    refine ⟨rfl, ?_, ?_⟩
    · intro h
      apply hne
      have := congrArg Tile.tileID h
      rw [ht1] at this
      exact this.symm
    · rw [lookupTile_insertTile_ne _ _ _ _ hne, hres1]
  · intro id t hr
    rw [addTile_resident env s id t hr]
    exact ⟨rfl, rfl⟩
  · intro id t c' hr hc
    have := addTile_cached env s id t c' hr hc
    exact ⟨this.2, by rw [this.1], by rw [this.1]⟩

/-- Witness for C8 at the "does not reuse wrapped tile" unit-test state:
the wrap-0 root resident, the wrap-1 root requested. -/
theorem claim_C8_witness :
    ((addTile envLoading stateWrap ⟨0, 1, 0, 0, 0⟩).loads = [⟨0, 1, 0, 0, 0⟩] ∧
     (addTile envLoading stateWrap ⟨0, 1, 0, 0, 0⟩).tile ≠ tileOf ⟨0, 0, 0, 0, 0⟩ .loaded ∧
     lookupTile (addTile envLoading stateWrap ⟨0, 1, 0, 0, 0⟩).state.tiles ⟨0, 0, 0, 0, 0⟩ =
       some (tileOf ⟨0, 0, 0, 0, 0⟩ .loaded)) ∧
    ((addTile envLoading stateWrap ⟨0, 0, 0, 0, 0⟩).loads = [] ∧
     (addTile envLoading stateWrap ⟨0, 0, 0, 0, 0⟩).tile.state = TileState.loaded) := by
  have h := claim_C8 envLoading stateWrap ⟨0, 0, 0, 0, 0⟩ (tileOf ⟨0, 0, 0, 0, 0⟩ .loaded)
    1 (by decide) (by decide) (by decide) (by decide) (by decide)
  have h2 := h.2.1 ⟨0, 0, 0, 0, 0⟩ (tileOf ⟨0, 0, 0, 0, 0⟩ .loaded) (by decide)
  exact ⟨h.1, h2⟩

/-! ## Claim C9 -/

/-- C9: before the source has loaded any data there are no resident tiles,
and `tilesIn` returns the empty list for every query geometry (the model is
a total function, so no failure is possible). -/
theorem claim_C9 {β : Type} (intersect : OverscaledTileID → Tile → Option β) :
    tilesIn initialState intersect = [] := rfl

/-! ## Claim C10 -/

/-- C10: the public `loaded` predicate treats errors as terminal: it
returns true after a source-level load error, and likewise when the source
is loaded and every requested tile's load ended in the `errored` state. -/
theorem claim_C10 (s : SCState) :
    (s.sourceErrored = true → scLoaded s = true) ∧
    (s.sourceLoaded = true →
      (∀ e ∈ s.tiles, (e : OverscaledTileID × Tile).2.state = TileState.errored) →
      scLoaded s = true) := by
  constructor
  · intro h
    unfold scLoaded
    simp [h]
  · intro hl hall
    unfold scLoaded
    rcases he : s.sourceErrored
    · simp only [Bool.false_eq_true, if_false, hl, Bool.not_true, if_true]
      rw [List.all_eq_true]
      intro e hm
      simp [hall e hm]
    · simp [he]

/-- Witness for C10 at the "loaded() true after tile error" unit-test
state: source metadata loaded, the only requested tile errored. -/
theorem claim_C10_witness :
    stateErrored.sourceLoaded = true ∧ scLoaded stateErrored = true :=
  ⟨by decide, (claim_C10 stateErrored).2 (by decide) (by decide)⟩

/-! ## Claim C5 -/

theorem cacheGetAndRemove_some_mem {c : CacheList} {id : OverscaledTileID} {t : Tile}
    {c' : CacheList} (h : cacheGetAndRemove c id = (some t, c')) :
    (id.wrapped, t) ∈ c ∧ c'.length + 1 = c.length := by
  induction c generalizing c' with
  | nil => simp [cacheGetAndRemove] at h
  | cons e rest ih =>
    obtain ⟨k, u⟩ := e
    by_cases hk : k = id.wrapped
    · subst hk
      rw [show cacheGetAndRemove ((id.wrapped, u) :: rest) id = (some u, rest) from by
        simp [cacheGetAndRemove]] at h
      have h1 : u = t := by
        have := congrArg Prod.fst h
        simpa using this
      have h2 : rest = c' := congrArg Prod.snd h
      subst h1; subst h2
      simp
    · rcases hr : cacheGetAndRemove rest id with ⟨o, crest⟩
      simp only [cacheGetAndRemove, if_neg hk, hr, Prod.mk.injEq] at h
      obtain ⟨h1, h2⟩ := h
      subst h1
      obtain ⟨hm, hl⟩ := ih hr
      subst h2
      constructor
      · exact List.mem_cons_of_mem _ hm
      · simp [← hl]

theorem cacheGet_none_eq {c : CacheList} {id : OverscaledTileID}
    (h : (cacheGet c id).1 = none) : (cacheGet c id).2 = c := by
  unfold cacheGet at h ⊢
  rcases hr : cacheGetAndRemove c id with ⟨o, c'⟩
  rcases o with _ | t
  · simp [hr]
  · rw [hr] at h; simp at h

theorem cacheGet_length (c : CacheList) (id : OverscaledTileID) :
    (cacheGet c id).2.length = c.length := by
  unfold cacheGet
  rcases hr : cacheGetAndRemove c id with ⟨o, c'⟩
  rcases o with _ | t
  · simp
  · have := (cacheGetAndRemove_some_mem hr).2
    simp
    omega

theorem cacheGet_some_mem {c : CacheList} {id : OverscaledTileID} {t : Tile}
    (h : (cacheGet c id).1 = some t) : (id.wrapped, t) ∈ c := by
  unfold cacheGet at h
  rcases hr : cacheGetAndRemove c id with ⟨o, c'⟩
  rcases o with _ | t2
  · rw [hr] at h; simp at h
  · rw [hr] at h
    simp at h
    subst h
    exact (cacheGetAndRemove_some_mem hr).1

theorem getLoadedTile_tiles (s : SCState) (id : OverscaledTileID) :
    (getLoadedTile s id).2.tiles = s.tiles := by
  unfold getLoadedTile
  rcases hr : lookupTile s.tiles id with _ | t
  · rfl
  · by_cases hd : t.hasData = true <;> simp [hd]

theorem getLoadedTile_cache_length (s : SCState) (id : OverscaledTileID) :
    (getLoadedTile s id).2.cache.length = s.cache.length := by
  unfold getLoadedTile
  rcases hr : lookupTile s.tiles id with _ | t
  · simp [cacheGet_length]
  · by_cases hd : t.hasData = true <;> simp [hd, cacheGet_length]

theorem getLoadedTile_none_eq {s : SCState} {id : OverscaledTileID}
    (h : (getLoadedTile s id).1 = none) : (getLoadedTile s id).2 = s := by
  unfold getLoadedTile at h ⊢
  rcases hr : lookupTile s.tiles id with _ | t
  · rw [hr] at h
    simp only at h ⊢
    rw [cacheGet_none_eq h]
  · rw [hr] at h
    by_cases hd : t.hasData = true
    · simp [hd] at h
    · simp only [hd, Bool.false_eq_true, if_false] at h ⊢
      rw [cacheGet_none_eq h]

theorem getLoadedTile_some_hasData {s : SCState} {id : OverscaledTileID} {t : Tile}
    (hcache : ∀ e ∈ s.cache, (e : OverscaledTileID × Tile).2.hasData = true)
    (h : (getLoadedTile s id).1 = some t) : t.hasData = true := by
  unfold getLoadedTile at h
  rcases hr : lookupTile s.tiles id with _ | u
  · rw [hr] at h
    simp only at h
    exact hcache _ (cacheGet_some_mem h)
  · rw [hr] at h
    by_cases hd : u.hasData = true
    · simp [hd] at h
      subst h; exact hd
    · simp only [hd, Bool.false_eq_true, if_false] at h
      exact hcache _ (cacheGet_some_mem h)

theorem findLoadedParentLoop_spec (id : OverscaledTileID) :
    ∀ (targets : List Nat) (s : SCState),
      (∀ e ∈ s.cache, (e : OverscaledTileID × Tile).2.hasData = true) →
      (findLoadedParentLoop id targets s).2.tiles = s.tiles ∧
      (findLoadedParentLoop id targets s).2.cache.length = s.cache.length ∧
      ((findLoadedParentLoop id targets s).1 = none →
        (findLoadedParentLoop id targets s).2 = s) ∧
      (∀ t, (findLoadedParentLoop id targets s).1 = some t → t.hasData = true)
  | [], s, hc => ⟨rfl, rfl, fun _ => rfl, fun t h => by simp [findLoadedParentLoop] at h⟩
  | z :: rest, s, hc => by
    rcases hg : (getLoadedTile s (id.scaledTo z)).1 with _ | t
    · have hs := getLoadedTile_none_eq hg
      have heq : findLoadedParentLoop id (z :: rest) s =
          findLoadedParentLoop id rest s := by
        simp only [findLoadedParentLoop, hg, hs]
      rw [heq]
      exact findLoadedParentLoop_spec id rest s hc
    · have heq : findLoadedParentLoop id (z :: rest) s =
          (some t, (getLoadedTile s (id.scaledTo z)).2) := by
        simp only [findLoadedParentLoop, hg]
      rw [heq]
      refine ⟨getLoadedTile_tiles s _, getLoadedTile_cache_length s _, ?_, ?_⟩
      · intro h; simp at h
      · intro t' ht'
        simp only [Option.some.injEq] at ht'
        subst ht'
        exact getLoadedTile_some_hasData hc hg

/-- C5 (amended): `findLoadedParent` searches resident tiles first and then
the bounded cache, per ancestor level from nearest to `minCoveringZoom`; it
never changes the resident map, a miss returns `none` with the whole state
unchanged, a returned tile always has data — and on a cache hit the entry
is re-inserted as most-recently-used, so the bounded cache keeps the same
number of entries (the found tile is not removed from the cache). -/
theorem claim_C5 (s : SCState) (id : OverscaledTileID) (mcz : Nat)
    (hmemo : s.loadedParentTiles = [])
    (hcache : ∀ e ∈ s.cache, (e : OverscaledTileID × Tile).2.hasData = true) :
    (findLoadedParent s id mcz).2.tiles = s.tiles ∧
    (findLoadedParent s id mcz).2.cache.length = s.cache.length ∧
    ((findLoadedParent s id mcz).1 = none → (findLoadedParent s id mcz).2 = s) ∧
    (∀ t, (findLoadedParent s id mcz).1 = some t → t.hasData = true) := by
  have hmm : lookupMemo s.loadedParentTiles id = none := by
    rw [hmemo]; rfl
  have heq : findLoadedParent s id mcz =
      findLoadedParentLoop id (ascentTargets id.overscaledZ mcz) s := by
    unfold findLoadedParent
    rw [hmm]
  rw [heq]
  exact findLoadedParentLoop_spec id _ s hcache

/-- Counterexample to C5 as stated: at the `findLoadedParent` "retains
parents" unit-test state (loaded `1/0/0` in the bounded cache, nothing
resident), the lookup for `2/0/0` finds the cached parent — and the bounded
cache still holds that entry after the call, contradicting the claim that a
hit promotes the tile out of the cache. -/
theorem claim_C5_counterexample :
    (findLoadedParent stateCachedParent ⟨2, 0, 2, 0, 0⟩ 0).1 = some cachedParentTile ∧
    cacheHas (findLoadedParent stateCachedParent ⟨2, 0, 2, 0, 0⟩ 0).2.cache
      ⟨1, 0, 1, 0, 0⟩ = true := by
  decide

/-- Witness for C5 at the same unit-test state. -/
theorem claim_C5_witness :
    stateCachedParent.loadedParentTiles = [] ∧
    (findLoadedParent stateCachedParent ⟨2, 0, 2, 0, 0⟩ 0).2.cache.length =
      stateCachedParent.cache.length := by
  refine ⟨by decide, ?_⟩
  exact (claim_C5 stateCachedParent ⟨2, 0, 2, 0, 0⟩ 0 (by decide) (by decide)).2.1

/-! ## Claim C1 -/

theorem topmostWalk_stop {tiles : TileMap} {zoom : Nat} {curID top : OverscaledTileID}
    (h : ¬ (zoom + 1 < curID.overscaledZ)) :
    topmostWalk tiles zoom curID top = top := by
  unfold topmostWalk
  rcases hoz : curID.overscaledZ with _ | n
  · rfl
  · unfold topmostWalkAux
    rw [if_neg h]

theorem retainChildStep_contains_mono {tiles : TileMap} {missing : List OverscaledTileID}
    {zoom mcz : Nat} {r : List OverscaledTileID} {e : OverscaledTileID × Tile}
    {k : OverscaledTileID} (h : r.contains k = true) :
    (retainChildStep tiles missing zoom mcz r e).contains k = true := by
  unfold retainChildStep
  split
  · exact h
  · rcases han : ancestorNeeds missing zoom (topmostWalk tiles zoom e.1 e.1)
    · simp only [han, Bool.false_eq_true, if_false]
      exact h
    · simp only [han, if_true]
      exact retainInsert_contains_of _ h

theorem retainLoadedChildren_contains_mono {tiles : TileMap}
    {missing : List OverscaledTileID} {zoom mcz : Nat} {r : List OverscaledTileID}
    {k : OverscaledTileID} (h : r.contains k = true) :
    (retainLoadedChildren tiles missing zoom mcz r).contains k = true :=
  foldl_preserve (fun r => r.contains k = true) _ tiles r h
    (fun _ _ _ hacc => retainChildStep_contains_mono hacc)

theorem children_canonical_facts {c : OverscaledTileID} {m : Nat}
    (hzz : c.overscaledZ = c.z) (hlt : c.overscaledZ < m) :
    ∀ k ∈ c.children m, k.overscaledZ = c.z + 1 ∧ k ≠ c ∧ k.scaledTo c.z = c := by
  intro k hk
  have hceta : (⟨c.z, c.wrap, c.z, c.x, c.y⟩ : OverscaledTileID) = c := by
    nth_rewrite 1 [← hzz]
    rfl
  have e1 : (2 * c.x) >>> 1 = c.x := by rw [Nat.shiftRight_one]; omega
  have e2 : (2 * c.x + 1) >>> 1 = c.x := by rw [Nat.shiftRight_one]; omega
  have e3 : (2 * c.y) >>> 1 = c.y := by rw [Nat.shiftRight_one]; omega
  have e4 : (2 * c.y + 1) >>> 1 = c.y := by rw [Nat.shiftRight_one]; omega
  have hone : c.z + 1 - c.z = 1 := by omega
  unfold OverscaledTileID.children at hk
  rw [if_neg (by omega)] at hk
  simp only [List.mem_cons, List.not_mem_nil, or_false] at hk
  rcases hk with h | h | h | h <;> subst h <;>
    refine ⟨rfl, fun he => by
        have h2 := congrArg OverscaledTileID.overscaledZ he
        simp only at h2
        omega, ?_⟩ <;>
  · unfold OverscaledTileID.scaledTo
    rw [if_neg (show ¬ ((c.z + 1 : Nat) < c.z) by omega)]
    simp [hone, e1, e2, e3, e4, hceta]

/-- C1 (amended): every ideal coordinate is always retained in the output
set, even when all four of its children are loaded — in that all-four case
the four children are retained as well and no ancestor (and no overzoomed
child) is probed on the ideal's behalf, so no ancestor is requested. -/
theorem claim_C1 (env : Env) (s : SCState) (c : OverscaledTileID)
    (hzz : c.overscaledZ = c.z) (hmax : c.z < env.maxzoom)
    (hnd : (addTile env s c).tile.hasData = false)
    (hch : ∀ k ∈ c.children env.maxzoom,
        ∃ t, lookupTile s.tiles k = some t ∧ t.hasData = true) :
    (updateRetainedTiles env s [c]).retain.contains c = true ∧
    (∀ k ∈ c.children env.maxzoom,
        (updateRetainedTiles env s [c]).retain.contains k = true) ∧
    (updateRetainedTiles env s [c]).parentProbes = [] ∧
    (updateRetainedTiles env s [c]).childProbes = [] := by
  have hmz : minIdealZoom [c] c.overscaledZ = c.overscaledZ := minIdealZoom_single c
  have hlt : minIdealZoom [c] c.overscaledZ < env.maxzoom := by
    rw [hmz, hzz]; exact hmax
  have hmu : maxUnderzooming = 3 := rfl
  set st1 := (addTile env s c).state with hst1
  set mz := minIdealZoom [c] c.overscaledZ with hmzdef
  set mcv := max (c.overscaledZ - maxOverzooming) env.minzoom with hmcv
  set mxv := max (c.overscaledZ + maxUnderzooming) env.minzoom with hmxv
  have hp1 : phase1Run env s [c] mz = ⟨st1, [c], [c], (addTile env s c).loads⟩ := by
    unfold phase1Run
    simp only [List.foldl_cons, List.foldl_nil]
    unfold phase1Step
    simp [hnd, hlt, retainInsert_nil, hst1]
  have hcf := children_canonical_facts hzz (by omega : c.overscaledZ < env.maxzoom)
  have hchst1 : ∀ k ∈ c.children env.maxzoom,
      ∃ t, lookupTile st1.tiles k = some t ∧ t.hasData = true := by
    intro k hk
    obtain ⟨t, hl, hd⟩ := hch k hk
    obtain ⟨_, hne, _⟩ := hcf k hk
    refine ⟨t, ?_, hd⟩
    rw [hst1, addTile_lookup_ne env s c k hne]
    exact hl
  set retain2 := retainLoadedChildren st1.tiles [c] mz mxv [c] with hr2
  have hcont_c : retain2.contains c = true := by
    rw [hr2]
    exact retainLoadedChildren_contains_mono (by rw [contains_iff_mem]; simp)
  have hcont_ch : ∀ k ∈ c.children env.maxzoom, retain2.contains k = true := by
    intro k hk
    obtain ⟨hkoz, hkne, hksc⟩ := hcf k hk
    obtain ⟨tk, hkl, hkd⟩ := hchst1 k hk
    have hment : (k, tk) ∈ st1.tiles := lookupTile_some_mem hkl
    have han : ancestorNeeds [c] mz k = true := by
      rw [ancestorNeeds_unfold]
      rw [if_pos (show mz < k.overscaledZ by rw [hmz]; omega)]
      have hsc : k.scaledTo (k.overscaledZ - 1) = c := by
        rw [show k.overscaledZ - 1 = c.z by omega]
        exact hksc
      rw [hsc]
      have hcc : ([c].contains c) = true := by rw [contains_iff_mem]; simp
      rw [hcc]
      simp
    rw [hr2]
    unfold retainLoadedChildren
    apply foldl_establish (fun r => r.contains k = true) _ st1.tiles [c] (k, tk) hment
    · intro acc
      unfold retainChildStep
      split
      · next hcond =>
        simp only [Bool.or_eq_true, Bool.not_eq_true', decide_eq_true_eq] at hcond
        rcases hcond with ((hc | hc) | hc) | hc
        · exact hc
        · rw [hkd] at hc; cases hc
        · rw [hmz] at hc
          exfalso; omega
        · rw [hmxv] at hc
          have hle := le_max_left (c.overscaledZ + maxUnderzooming) env.minzoom
          exfalso; omega
      · have hstop : ¬ (mz + 1 < ((k, tk) : OverscaledTileID × Tile).1.overscaledZ) := by
          rw [hmz]
          show ¬ (c.overscaledZ + 1 < k.overscaledZ)
          omega
        rw [topmostWalk_stop hstop]
        simp only [han, if_true]
        exact retainInsert_contains_self _ _
    · intro acc a _ hacc
      exact retainChildStep_contains_mono hacc
  have hall4 : ((c.children env.maxzoom).all (fun k => retain2.contains k)) = true := by
    rw [List.all_eq_true]
    intro k hk
    exact hcont_ch k hk
  have hmaxle : ¬ env.maxzoom ≤ c.z := by omega
  have hproc : processIdeal env mcv ⟨retain2, [], [], [], st1, (addTile env s c).loads⟩ c =
      ⟨retain2, [], [], [], st1, (addTile env s c).loads⟩ := by
    unfold processIdeal
    rw [show lookupTile (⟨retain2, [], [], [], st1,
        (addTile env s c).loads⟩ : RetainAcc).st.tiles c = some (addTile env s c).tile from
      addTile_lookup_self env s c]
    simp only [hnd, Bool.false_eq_true, if_false, hmaxle, hall4, if_true]
  have hfin : updateRetainedTiles env s [c] =
      RetainResult.ofAcc ⟨retain2, [], [], [], st1, (addTile env s c).loads⟩ := by
    rw [updateRetained_single]
    unfold retentionPass
    rw [← hmzdef, ← hmcv, ← hmxv, hp1]
    unfold RetainAcc.ofPhase1
    unfold phase3Run
    simp only [List.foldl_cons, List.foldl_nil]
    rw [← hr2]
    exact congrArg RetainResult.ofAcc hproc
  rw [hfin]
  exact ⟨hcont_c, fun k hk => hcont_ch k hk, rfl, rfl⟩

/-- Counterexample to C1 as stated: in the "don't load parent if all
immediate children are loaded" unit-test scenario (ideal `2/1/1`, its four
`z3` children resident and loaded), the ideal coordinate IS in the output
set, contradicting the claim that it is excluded in the all-four case. -/
theorem claim_C1_counterexample :
    ((idealAllFour.children envLoading.maxzoom).all
        (fun k => (lookupTile stateAllFour.tiles k).any Tile.hasData)) = true ∧
    (updateRetainedTiles envLoading stateAllFour [idealAllFour]).retain.contains
      idealAllFour = true ∧
    (updateRetainedTiles envLoading stateAllFour [idealAllFour]).parentProbes = [] := by
  decide

/-- Witness for C1 at the same all-four unit-test scenario. -/
theorem claim_C1_witness :
    idealAllFour.overscaledZ = idealAllFour.z ∧
    idealAllFour.z < envLoading.maxzoom ∧
    (updateRetainedTiles envLoading stateAllFour [idealAllFour]).retain.contains
      idealAllFour = true ∧
    (updateRetainedTiles envLoading stateAllFour [idealAllFour]).childProbes = [] := by
  have h := claim_C1 envLoading stateAllFour idealAllFour (by decide) (by decide)
    (by decide) (by decide)
  exact ⟨by decide, by decide, h.1, h.2.2.2⟩

/-! ## Claim C4 -/

theorem scaledTo_bounds {id : OverscaledTileID} {t mn mx : Nat}
    (h1 : mn ≤ id.z) (h2 : id.z ≤ mx) (h3 : mn ≤ t) :
    mn ≤ (id.scaledTo t).z ∧ (id.scaledTo t).z ≤ mx := by
  rw [scaledTo_z]
  omega

theorem minIdealZoom_ge {ideals : List OverscaledTileID} {init b : Nat}
    (hinit : b ≤ init) (h : ∀ c ∈ ideals, b ≤ c.overscaledZ) :
    b ≤ minIdealZoom ideals init := by
  unfold minIdealZoom
  exact foldl_preserve (fun m => b ≤ m) _ ideals init hinit
    (fun acc a ha hacc => by
      show b ≤ min acc a.overscaledZ
      have := h a ha
      omega)

theorem phase1Step_bounds (env : Env) (mz : Nat) (acc : Phase1Acc)
    (c : OverscaledTileID) (hc : env.minzoom ≤ c.z ∧ c.z ≤ env.maxzoom)
    (hr : ∀ r ∈ acc.retain, env.minzoom ≤ r.z ∧ r.z ≤ env.maxzoom)
    (ht : ∀ e ∈ acc.st.tiles,
      env.minzoom ≤ (e : OverscaledTileID × Tile).1.z ∧ e.1.z ≤ env.maxzoom) :
    (∀ r ∈ (phase1Step env mz acc c).retain,
      env.minzoom ≤ r.z ∧ r.z ≤ env.maxzoom) ∧
    (∀ e ∈ (phase1Step env mz acc c).st.tiles,
      env.minzoom ≤ (e : OverscaledTileID × Tile).1.z ∧ e.1.z ≤ env.maxzoom) := by
  have hretain : ∀ r ∈ retainInsert acc.retain c,
      env.minzoom ≤ r.z ∧ r.z ≤ env.maxzoom := by
    intro r hrm
    rcases mem_retainInsert hrm with h | h
    · exact hr r h
    · rw [h]; exact hc
  have htiles : ∀ e ∈ (addTile env acc.st c).state.tiles,
      env.minzoom ≤ (e : OverscaledTileID × Tile).1.z ∧ e.1.z ≤ env.maxzoom := by
    intro e he
    rcases addTile_mem_tiles he with h | h
    · rw [h]; exact hc
    · exact ht e h
  simp only [phase1Step]
  split
  · exact ⟨hretain, htiles⟩
  · split
    · exact ⟨hretain, htiles⟩
    · exact ⟨hretain, htiles⟩

theorem phase1_bounds (env : Env) (s : SCState) (ideals : List OverscaledTileID)
    (mz : Nat)
    (HI : ∀ c ∈ ideals, env.minzoom ≤ c.z ∧ c.z ≤ env.maxzoom)
    (HT : ∀ e ∈ s.tiles,
      env.minzoom ≤ (e : OverscaledTileID × Tile).1.z ∧ e.1.z ≤ env.maxzoom) :
    (∀ r ∈ (phase1Run env s ideals mz).retain,
        env.minzoom ≤ r.z ∧ r.z ≤ env.maxzoom) ∧
    (∀ e ∈ (phase1Run env s ideals mz).st.tiles,
        env.minzoom ≤ (e : OverscaledTileID × Tile).1.z ∧ e.1.z ≤ env.maxzoom) := by
  unfold phase1Run
  exact foldl_preserve
    (fun acc : Phase1Acc =>
      (∀ r ∈ acc.retain, env.minzoom ≤ r.z ∧ r.z ≤ env.maxzoom) ∧
      (∀ e ∈ acc.st.tiles,
        env.minzoom ≤ (e : OverscaledTileID × Tile).1.z ∧ e.1.z ≤ env.maxzoom))
    (phase1Step env mz) ideals ⟨s, [], [], []⟩
    ⟨fun r hr => absurd hr (List.not_mem_nil r), HT⟩
    (fun acc c hc hacc => phase1Step_bounds env mz acc c (HI c hc) hacc.1 hacc.2)

theorem topmostWalkAux_bounds (tiles : TileMap) {zoom mn mx : Nat} (hzoom : mn ≤ zoom) :
    ∀ (fuel : Nat) (curID top : OverscaledTileID),
      mn ≤ curID.z → curID.z ≤ mx → mn ≤ top.z → top.z ≤ mx →
      mn ≤ (topmostWalkAux tiles zoom fuel curID top).z ∧
        (topmostWalkAux tiles zoom fuel curID top).z ≤ mx
  | 0, curID, top, _, _, h3, h4 => ⟨h3, h4⟩
  | fuel + 1, curID, top, h1, h2, h3, h4 => by
    simp only [topmostWalkAux]
    by_cases hcond : zoom + 1 < curID.overscaledZ
    · rw [if_pos hcond]
      have hp : mn ≤ (curID.scaledTo (curID.overscaledZ - 1)).z ∧
          (curID.scaledTo (curID.overscaledZ - 1)).z ≤ mx :=
        scaledTo_bounds h1 h2 (by omega)
      rcases hl : lookupTile tiles (curID.scaledTo (curID.overscaledZ - 1)) with _ | t
      · simp only [hl]
        exact ⟨h3, h4⟩
      · simp only [hl]
        rcases hd : t.hasData
        · simp only [hd, Bool.false_eq_true, if_false]
          exact topmostWalkAux_bounds tiles hzoom fuel _ _ hp.1 hp.2 h3 h4
        · simp only [hd, if_true]
          exact topmostWalkAux_bounds tiles hzoom fuel _ _ hp.1 hp.2 hp.1 hp.2
    · rw [if_neg hcond]
      exact ⟨h3, h4⟩

theorem retainChildStep_bounds (env : Env) (tiles : TileMap)
    (missing : List OverscaledTileID) (zoom mcz : Nat)
    (retain : List OverscaledTileID) (e : OverscaledTileID × Tile)
    (hzoom : env.minzoom ≤ zoom)
    (he : env.minzoom ≤ e.1.z ∧ e.1.z ≤ env.maxzoom)
    (hr : ∀ r ∈ retain, env.minzoom ≤ r.z ∧ r.z ≤ env.maxzoom) :
    ∀ r ∈ retainChildStep tiles missing zoom mcz retain e,
      env.minzoom ≤ r.z ∧ r.z ≤ env.maxzoom := by
  simp only [retainChildStep]
  split
  · exact hr
  · rcases han : ancestorNeeds missing zoom (topmostWalk tiles zoom e.1 e.1)
    · simp only [han, Bool.false_eq_true, if_false]
      exact hr
    · simp only [han, if_true]
      intro r hrm
      rcases mem_retainInsert hrm with h | h
      · exact hr r h
      · rw [h]
        exact topmostWalkAux_bounds tiles hzoom _ _ _ he.1 he.2 he.1 he.2

theorem retainLoadedChildren_bounds (env : Env) (tiles : TileMap)
    (missing : List OverscaledTileID) (zoom mcz : Nat)
    (retain : List OverscaledTileID) (hzoom : env.minzoom ≤ zoom)
    (HT : ∀ e ∈ tiles,
      env.minzoom ≤ (e : OverscaledTileID × Tile).1.z ∧ e.1.z ≤ env.maxzoom)
    (HR : ∀ r ∈ retain, env.minzoom ≤ r.z ∧ r.z ≤ env.maxzoom) :
    ∀ r ∈ retainLoadedChildren tiles missing zoom mcz retain,
      env.minzoom ≤ r.z ∧ r.z ≤ env.maxzoom := by
  unfold retainLoadedChildren
  exact foldl_preserve
    (fun acc : List OverscaledTileID =>
      ∀ r ∈ acc, env.minzoom ≤ r.z ∧ r.z ≤ env.maxzoom)
    (retainChildStep tiles missing zoom mcz) tiles retain HR
    (fun acc e hem hacc =>
      retainChildStep_bounds env tiles missing zoom mcz acc e hzoom (HT e hem) hacc)

theorem ascend_bounds (env : Env) (idealID : OverscaledTileID) {mn mx : Nat}
    (hI1 : mn ≤ idealID.z) (hI2 : idealID.z ≤ mx) :
    ∀ (targets : List Nat) (pwr : Bool) (acc : RetainAcc),
      (∀ t ∈ targets, mn ≤ t) →
      (∀ r ∈ acc.retain, mn ≤ r.z ∧ r.z ≤ mx) →
      (∀ p ∈ acc.parentProbes, mn ≤ p.z ∧ mn ≤ p.overscaledZ) →
      (∀ r ∈ (ascend env idealID targets pwr acc).retain, mn ≤ r.z ∧ r.z ≤ mx) ∧
      (∀ p ∈ (ascend env idealID targets pwr acc).parentProbes,
        mn ≤ p.z ∧ mn ≤ p.overscaledZ)
  | [], _, acc, _, hr, hp => ⟨hr, hp⟩
  | oz :: rest, pwr, acc, htg, hr, hp => by
    have hozmn : mn ≤ oz := htg oz (List.mem_cons_self oz rest)
    have hpidz := scaledTo_bounds (t := oz) hI1 hI2 hozmn
    have htg' : ∀ t ∈ rest, mn ≤ t := fun t ht => htg t (List.mem_cons_of_mem _ ht)
    have hp1 : ∀ p ∈ acc.parentProbes ++ [idealID.scaledTo oz],
        mn ≤ p.z ∧ mn ≤ p.overscaledZ := by
      intro p hpm
      rcases List.mem_append.mp hpm with h | h
      · exact hp p h
      · rw [List.mem_singleton.mp h]
        rw [scaledTo_overscaledZ]
        exact ⟨hpidz.1, hozmn⟩
    have hrins : ∀ (l : List OverscaledTileID),
        (∀ r ∈ l, mn ≤ r.z ∧ r.z ≤ mx) →
        ∀ r ∈ retainInsert l (idealID.scaledTo oz), mn ≤ r.z ∧ r.z ≤ mx := by
      intro l hl r hrm
      rcases mem_retainInsert hrm with h | h
      · exact hl r h
      · rw [h]; exact hpidz
    simp only [ascend]
    by_cases hchk : acc.checked.contains (idealID.scaledTo oz) = true
    · rw [if_pos hchk]
      exact ⟨hr, hp⟩
    · rw [if_neg hchk]
      rcases hl : lookupTile acc.st.tiles (idealID.scaledTo oz) with _ | t
      · simp only [hl]
        rcases hpw : pwr
        · simp only [Bool.false_eq_true, if_false]
          exact ascend_bounds env idealID hI1 hI2 rest false _ htg' hr hp1
        · simp only [if_true]
          rcases hd : (addTile env acc.st (idealID.scaledTo oz)).tile.hasData
          · simp only [hd, Bool.false_eq_true, if_false]
            exact ascend_bounds env idealID hI1 hI2 rest _ _ htg' (hrins _ hr) hp1
          · simp only [hd, if_true]
            exact ⟨hrins _ hr, hp1⟩
      · simp only [hl]
        rcases hd : t.hasData
        · simp only [hd, Bool.or_false, Bool.false_eq_true, if_false]
          rcases hpw : pwr
          · simp only [Bool.false_eq_true, if_false]
            exact ascend_bounds env idealID hI1 hI2 rest _ _ htg' hr hp1
          · simp only [if_true]
            exact ascend_bounds env idealID hI1 hI2 rest _ _ htg' (hrins _ hr) hp1
        · simp only [hd, Bool.or_true, if_true]
          exact ⟨hrins _ hr, hp1⟩

theorem ascentTargets_ge (idealOz minCoveringZoom : Nat) :
    ∀ t ∈ ascentTargets idealOz minCoveringZoom, minCoveringZoom ≤ t := by
  intro t ht
  unfold ascentTargets at ht
  rw [List.mem_reverse] at ht
  rw [List.mem_range'_1] at ht
  omega

theorem children_overzoomed {c : OverscaledTileID} {m : Nat} (h : m ≤ c.overscaledZ) :
    c.children m = [⟨c.overscaledZ + 1, c.wrap, c.z, c.x, c.y⟩] := by
  unfold OverscaledTileID.children
  rw [if_pos h]

theorem processIdeal_bounds (env : Env) (mcv : Nat) (acc : RetainAcc)
    (c : OverscaledTileID) (hmcv : env.minzoom ≤ mcv)
    (hc1 : env.minzoom ≤ c.z) (hc2 : c.z ≤ env.maxzoom) (hc3 : c.z ≤ c.overscaledZ)
    (hr : ∀ r ∈ acc.retain, env.minzoom ≤ r.z ∧ r.z ≤ env.maxzoom)
    (hp : ∀ p ∈ acc.parentProbes, env.minzoom ≤ p.z ∧ env.minzoom ≤ p.overscaledZ) :
    (∀ r ∈ (processIdeal env mcv acc c).retain,
      env.minzoom ≤ r.z ∧ r.z ≤ env.maxzoom) ∧
    (∀ p ∈ (processIdeal env mcv acc c).parentProbes,
      env.minzoom ≤ p.z ∧ env.minzoom ≤ p.overscaledZ) := by
  have htg' : ∀ t ∈ ascentTargets c.overscaledZ mcv, env.minzoom ≤ t :=
    fun t ht => le_trans hmcv (ascentTargets_ge c.overscaledZ mcv t ht)
  simp only [processIdeal]
  rcases hlk : lookupTile acc.st.tiles c with _ | tile
  · simp only [hlk]
    exact ⟨hr, hp⟩
  · simp only [hlk]
    rcases hd : tile.hasData
    · simp only [hd, Bool.false_eq_true, if_false]
      by_cases hoz : env.maxzoom ≤ c.z
      · rw [if_pos hoz]
        have hchl : c.children env.maxzoom =
            [⟨c.overscaledZ + 1, c.wrap, c.z, c.x, c.y⟩] :=
          children_overzoomed (by omega)
        rw [hchl]
        rcases hcl : lookupTile acc.st.tiles
            (⟨c.overscaledZ + 1, c.wrap, c.z, c.x, c.y⟩ : OverscaledTileID) with _ | ct
        · simp only [hcl]
          exact ascend_bounds env c hc1 hc2 _ _ _ htg' hr hp
        · simp only [hcl]
          rcases hcd : ct.hasData
          · simp only [hcd, Bool.false_eq_true, if_false]
            exact ascend_bounds env c hc1 hc2 _ _ _ htg' hr hp
          · simp only [hcd, if_true]
            refine ⟨?_, hp⟩
            intro r hrm
            rcases mem_retainInsert hrm with h | h
            · exact hr r h
            · rw [h]
              exact ⟨hc1, hc2⟩
      · rw [if_neg hoz]
        rcases hall : (c.children env.maxzoom).all (fun k => acc.retain.contains k)
        · simp only [hall, Bool.false_eq_true, if_false]
          exact ascend_bounds env c hc1 hc2 _ _ _ htg' hr hp
        · simp only [hall, if_true]
          exact ⟨hr, hp⟩
    · simp only [hd, if_true]
      exact ⟨hr, hp⟩

/-- C4: whenever every ideal coordinate lies within the source zoom range
(canonical zoom in `[minzoom, maxzoom]`, with `z ≤ overscaledZ`) and every
resident tile's canonical zoom does too, every coordinate retained by the
reconciliation pass has canonical zoom within `[minzoom, maxzoom]`, and the
ancestor ascent never probes a coordinate whose canonical or overscaled
zoom is below `minzoom`. -/
theorem claim_C4 (env : Env) (s : SCState) (ideals : List OverscaledTileID)
    (HI : ∀ c ∈ ideals,
      env.minzoom ≤ c.z ∧ c.z ≤ env.maxzoom ∧ c.z ≤ c.overscaledZ)
    (HT : ∀ e ∈ s.tiles,
      env.minzoom ≤ (e : OverscaledTileID × Tile).1.z ∧ e.1.z ≤ env.maxzoom) :
    (∀ r ∈ (updateRetainedTiles env s ideals).retain,
        env.minzoom ≤ r.z ∧ r.z ≤ env.maxzoom) ∧
    (∀ p ∈ (updateRetainedTiles env s ideals).parentProbes,
        env.minzoom ≤ p.z ∧ env.minzoom ≤ p.overscaledZ) := by
  rcases ideals with _ | ⟨c0, rest⟩
  · exact ⟨fun r hr => absurd hr (List.not_mem_nil r),
      fun p hp => absurd hp (List.not_mem_nil p)⟩
  · have hc0 := HI c0 (List.mem_cons_self c0 rest)
    have hmz : env.minzoom ≤ minIdealZoom (c0 :: rest) c0.overscaledZ :=
      minIdealZoom_ge (le_trans hc0.1 hc0.2.2)
        (fun c hc => le_trans (HI c hc).1 (HI c hc).2.2)
    have hmcv : env.minzoom ≤ max (c0.overscaledZ - maxOverzooming) env.minzoom :=
      le_max_right _ _
    have hp1 := phase1_bounds env s (c0 :: rest)
      (minIdealZoom (c0 :: rest) c0.overscaledZ)
      (fun c hc => ⟨(HI c hc).1, (HI c hc).2.1⟩) HT
    have hr0 := retainLoadedChildren_bounds env
      (phase1Run env s (c0 :: rest) (minIdealZoom (c0 :: rest) c0.overscaledZ)).st.tiles
      (phase1Run env s (c0 :: rest) (minIdealZoom (c0 :: rest) c0.overscaledZ)).missing
      (minIdealZoom (c0 :: rest) c0.overscaledZ)
      (max (c0.overscaledZ + maxUnderzooming) env.minzoom)
      (phase1Run env s (c0 :: rest) (minIdealZoom (c0 :: rest) c0.overscaledZ)).retain
      hmz hp1.2 hp1.1
    have hfold := foldl_preserve
      (fun acc : RetainAcc =>
        (∀ r ∈ acc.retain, env.minzoom ≤ r.z ∧ r.z ≤ env.maxzoom) ∧
        (∀ p ∈ acc.parentProbes,
          env.minzoom ≤ p.z ∧ env.minzoom ≤ p.overscaledZ))
      (processIdeal env (max (c0.overscaledZ - maxOverzooming) env.minzoom))
      (c0 :: rest)
      (RetainAcc.ofPhase1
        (phase1Run env s (c0 :: rest) (minIdealZoom (c0 :: rest) c0.overscaledZ))
        (minIdealZoom (c0 :: rest) c0.overscaledZ)
        (max (c0.overscaledZ + maxUnderzooming) env.minzoom))
      ⟨hr0, fun p hp => absurd hp (List.not_mem_nil p)⟩
      (fun acc c hc hacc => processIdeal_bounds env _ acc c hmcv
        (HI c hc).1 (HI c hc).2.1 (HI c hc).2.2 hacc.1 hacc.2)
    exact ⟨hfold.1, hfold.2⟩

/-- Witness for C4 at the all-four unit-test scenario. -/
theorem claim_C4_witness :
    (∀ c ∈ [idealAllFour],
      envLoading.minzoom ≤ c.z ∧ c.z ≤ envLoading.maxzoom ∧
        c.z ≤ c.overscaledZ) ∧
    (∀ r ∈ (updateRetainedTiles envLoading stateAllFour [idealAllFour]).retain,
        envLoading.minzoom ≤ r.z ∧ r.z ≤ envLoading.maxzoom) ∧
    (∀ p ∈ (updateRetainedTiles envLoading stateAllFour [idealAllFour]).parentProbes,
        envLoading.minzoom ≤ p.z ∧ envLoading.minzoom ≤ p.overscaledZ) := by
  have h := claim_C4 envLoading stateAllFour [idealAllFour] (by decide) (by decide)
  exact ⟨by decide, h.1, h.2⟩


/-! ## Claim C3 -/

theorem nodup_snoc {α : Type} {l : List α} {a : α} (h : l.Nodup) (ha : a ∉ l) :
    (l ++ [a]).Nodup := by
  rw [List.nodup_append]
  refine ⟨h, List.nodup_singleton a, ?_⟩
  intro x hx hxa
  rw [List.mem_singleton] at hxa
  subst hxa
  exact ha hx

theorem ascend_memo (env : Env) (idealID : OverscaledTileID) :
    ∀ (targets : List Nat) (pwr : Bool) (acc : RetainAcc),
      acc.parentProbes.Nodup → (∀ p ∈ acc.parentProbes, p ∈ acc.checked) →
      (ascend env idealID targets pwr acc).parentProbes.Nodup ∧
      ∀ p ∈ (ascend env idealID targets pwr acc).parentProbes,
        p ∈ (ascend env idealID targets pwr acc).checked
  | [], _, acc, h1, h2 => ⟨h1, h2⟩
  | oz :: rest, pwr, acc, h1, h2 => by
    simp only [ascend]
    by_cases hchk : acc.checked.contains (idealID.scaledTo oz) = true
    · rw [if_pos hchk]
      exact ⟨h1, h2⟩
    · rw [if_neg hchk]
      have hnotc : idealID.scaledTo oz ∉ acc.checked :=
        fun h => hchk ((contains_iff_mem acc.checked (idealID.scaledTo oz)).mpr h)
      have hnotp : idealID.scaledTo oz ∉ acc.parentProbes := fun h => hnotc (h2 _ h)
      have h1' : (acc.parentProbes ++ [idealID.scaledTo oz]).Nodup := nodup_snoc h1 hnotp
      have h2' : ∀ p ∈ acc.parentProbes ++ [idealID.scaledTo oz],
          p ∈ idealID.scaledTo oz :: acc.checked := by
        intro p hp
        rcases List.mem_append.mp hp with h | h
        · exact List.mem_cons_of_mem _ (h2 p h)
        · rw [List.mem_singleton.mp h]
          exact List.mem_cons_self _ _
      rcases hl : lookupTile acc.st.tiles (idealID.scaledTo oz) with _ | t
      · simp only [hl]
        rcases hpw : pwr
        · simp only [Bool.false_eq_true, if_false]
          exact ascend_memo env idealID rest false _ h1' h2'
        · simp only [if_true]
          rcases hd : (addTile env acc.st (idealID.scaledTo oz)).tile.hasData
          · simp only [hd, Bool.false_eq_true, if_false]
            exact ascend_memo env idealID rest _ _ h1' h2'
          · simp only [hd, if_true]
            exact ⟨h1', h2'⟩
      · simp only [hl]
        rcases hd : t.hasData
        · simp only [hd, Bool.or_false, Bool.false_eq_true, if_false]
          rcases hpw : pwr
          · simp only [Bool.false_eq_true, if_false]
            exact ascend_memo env idealID rest _ _ h1' h2'
          · simp only [if_true]
            exact ascend_memo env idealID rest _ _ h1' h2'
        · simp only [hd, Bool.or_true, if_true]
          exact ⟨h1', h2'⟩

theorem processIdeal_memo (env : Env) (mcv : Nat) (acc : RetainAcc)
    (c : OverscaledTileID)
    (h1 : acc.parentProbes.Nodup) (h2 : ∀ p ∈ acc.parentProbes, p ∈ acc.checked) :
    (processIdeal env mcv acc c).parentProbes.Nodup ∧
    ∀ p ∈ (processIdeal env mcv acc c).parentProbes,
      p ∈ (processIdeal env mcv acc c).checked := by
  simp only [processIdeal]
  rcases hlk : lookupTile acc.st.tiles c with _ | tile
  · simp only [hlk]
    exact ⟨h1, h2⟩
  · simp only [hlk]
    rcases hd : tile.hasData
    · simp only [hd, Bool.false_eq_true, if_false]
      by_cases hoz : env.maxzoom ≤ c.z
      · rw [if_pos hoz]
        rcases hch : c.children env.maxzoom with _ | ⟨child, chrest⟩
        · simp only [hch]
          exact ⟨h1, h2⟩
        · simp only [hch]
          rcases hcl : lookupTile acc.st.tiles child with _ | ct
          · simp only [hcl]
            exact ascend_memo env c _ _ _ h1 h2
          · simp only [hcl]
            rcases hcd : ct.hasData
            · simp only [hcd, Bool.false_eq_true, if_false]
              exact ascend_memo env c _ _ _ h1 h2
            · simp only [hcd, if_true]
              exact ⟨h1, h2⟩
      · rw [if_neg hoz]
        rcases hall : (c.children env.maxzoom).all (fun k => acc.retain.contains k)
        · simp only [hall, Bool.false_eq_true, if_false]
          exact ascend_memo env c _ _ _ h1 h2
        · simp only [hall, if_true]
          exact ⟨h1, h2⟩
    · simp only [hd, if_true]
      exact ⟨h1, h2⟩

theorem updateRetained_parentProbes_nodup (env : Env) (s : SCState)
    (ideals : List OverscaledTileID) :
    (updateRetainedTiles env s ideals).parentProbes.Nodup := by
  rcases ideals with _ | ⟨c0, rest⟩
  · exact List.nodup_nil
  · have hfold := foldl_preserve
      (fun acc : RetainAcc =>
        acc.parentProbes.Nodup ∧ ∀ p ∈ acc.parentProbes, p ∈ acc.checked)
      (processIdeal env (max (c0.overscaledZ - maxOverzooming) env.minzoom))
      (c0 :: rest)
      (RetainAcc.ofPhase1
        (phase1Run env s (c0 :: rest) (minIdealZoom (c0 :: rest) c0.overscaledZ))
        (minIdealZoom (c0 :: rest) c0.overscaledZ)
        (max (c0.overscaledZ + maxUnderzooming) env.minzoom))
      ⟨List.nodup_nil, fun p hp => absurd hp (List.not_mem_nil p)⟩
      (fun acc c hc hacc => processIdeal_memo env _ acc c hacc.1 hacc.2)
    exact hfold.1

theorem ascentTargets_lt (idealOz minCoveringZoom : Nat) :
    ∀ t ∈ ascentTargets idealOz minCoveringZoom, t < idealOz := by
  intro t ht
  unfold ascentTargets at ht
  rw [List.mem_reverse, List.mem_range'_1] at ht
  omega

theorem ascentTargets_nodup (idealOz minCoveringZoom : Nat) :
    (ascentTargets idealOz minCoveringZoom).Nodup := by
  unfold ascentTargets
  exact List.nodup_reverse.mpr (List.nodup_range' _ _)

theorem ascend_spec (env : Env) (s : SCState) (c : OverscaledTileID)
    (hload : ∀ id, (env.load id).hasData = false) :
    ∀ (targets : List Nat) (pwr : Bool) (acc : RetainAcc),
      targets.Nodup →
      (∀ t ∈ targets, lookupTile acc.st.tiles (c.scaledTo t) =
        lookupTile s.tiles (c.scaledTo t)) →
      (∀ t ∈ targets, c.scaledTo t ∉ acc.checked) →
      acc.st.cache = [] →
      (ascend env c targets pwr acc).parentProbes =
        acc.parentProbes ++ specAscentProbes s.tiles c targets
  | [], _, acc, _, _, _, _ => by simp [ascend, specAscentProbes]
  | oz :: rest, pwr, acc, hnd, hlk, hchk, hc => by
    have hndr : rest.Nodup := (List.nodup_cons.mp hnd).2
    have hozr : oz ∉ rest := (List.nodup_cons.mp hnd).1
    have hne : ∀ t ∈ rest, c.scaledTo t ≠ c.scaledTo oz := by
      intro t ht heq
      have h2 := congrArg OverscaledTileID.overscaledZ heq
      rw [scaledTo_overscaledZ, scaledTo_overscaledZ] at h2
      exact hozr (h2 ▸ ht)
    have hchk0 : ¬ (acc.checked.contains (c.scaledTo oz) = true) :=
      fun h => hchk oz (List.mem_cons_self oz rest)
        ((contains_iff_mem acc.checked (c.scaledTo oz)).mp h)
    have hlk1 : ∀ t ∈ rest, lookupTile acc.st.tiles (c.scaledTo t) =
        lookupTile s.tiles (c.scaledTo t) :=
      fun t ht => hlk t (List.mem_cons_of_mem _ ht)
    have hchk1 : ∀ t ∈ rest, c.scaledTo t ∉ c.scaledTo oz :: acc.checked := by
      intro t ht h
      rcases List.mem_cons.mp h with h | h
      · exact hne t ht h
      · exact hchk t (List.mem_cons_of_mem _ ht) h
    simp only [ascend, specAscentProbes]
    rw [if_neg hchk0]
    rw [hlk oz (List.mem_cons_self oz rest)]
    rcases hls : lookupTile s.tiles (c.scaledTo oz) with _ | t
    · simp only [hls]
      have hlknone : lookupTile acc.st.tiles (c.scaledTo oz) = none := by
        rw [hlk oz (List.mem_cons_self oz rest)]
        exact hls
      rcases hpw : pwr
      · simp only [Bool.false_eq_true, if_false]
        exact (ascend_spec env s c hload rest false
            ⟨acc.retain, c.scaledTo oz :: acc.checked,
             acc.parentProbes ++ [c.scaledTo oz], acc.childProbes, acc.st, acc.loads⟩
            hndr hlk1 hchk1 hc).trans
          (show (acc.parentProbes ++ [c.scaledTo oz]) ++ specAscentProbes s.tiles c rest
              = acc.parentProbes ++ c.scaledTo oz :: specAscentProbes s.tiles c rest by
            simp)
      · simp only [if_true]
        have hfresh := addTile_fresh env acc.st (c.scaledTo oz) hlknone
          (by rw [hc]; rfl)
        have hrd : (addTile env acc.st (c.scaledTo oz)).tile.hasData = false := by
          rw [hfresh]
          exact hload _
        simp only [hrd, Bool.false_eq_true, if_false]
        have hlk2 : ∀ t ∈ rest,
            lookupTile (addTile env acc.st (c.scaledTo oz)).state.tiles (c.scaledTo t) =
              lookupTile s.tiles (c.scaledTo t) := by
          intro t ht
          rw [addTile_lookup_ne env acc.st (c.scaledTo oz) (c.scaledTo t) (hne t ht)]
          exact hlk1 t ht
        have hc2 : (addTile env acc.st (c.scaledTo oz)).state.cache = [] :=
          addTile_cache_empty env acc.st (c.scaledTo oz) hc
        exact (ascend_spec env s c hload rest
            ((addTile env acc.st (c.scaledTo oz)).tile.wasRequested)
            ⟨retainInsert acc.retain (c.scaledTo oz), c.scaledTo oz :: acc.checked,
             acc.parentProbes ++ [c.scaledTo oz], acc.childProbes,
             (addTile env acc.st (c.scaledTo oz)).state,
             acc.loads ++ (addTile env acc.st (c.scaledTo oz)).loads⟩
            hndr hlk2 hchk1 hc2).trans
          (show (acc.parentProbes ++ [c.scaledTo oz]) ++ specAscentProbes s.tiles c rest
              = acc.parentProbes ++ c.scaledTo oz :: specAscentProbes s.tiles c rest by
            simp)
    · simp only [hls]
      rcases hd : t.hasData
      · simp only [hd, Bool.or_false, Bool.false_eq_true, if_false]
        rcases hpw : pwr
        · simp only [Bool.false_eq_true, if_false]
          exact (ascend_spec env s c hload rest t.wasRequested
              ⟨acc.retain, c.scaledTo oz :: acc.checked,
               acc.parentProbes ++ [c.scaledTo oz], acc.childProbes, acc.st, acc.loads⟩
              hndr hlk1 hchk1 hc).trans
            (show (acc.parentProbes ++ [c.scaledTo oz]) ++ specAscentProbes s.tiles c rest
                = acc.parentProbes ++ c.scaledTo oz :: specAscentProbes s.tiles c rest by
              simp)
        · simp only [if_true]
          exact (ascend_spec env s c hload rest t.wasRequested
              ⟨retainInsert acc.retain (c.scaledTo oz), c.scaledTo oz :: acc.checked,
               acc.parentProbes ++ [c.scaledTo oz], acc.childProbes, acc.st, acc.loads⟩
              hndr hlk1 hchk1 hc).trans
            (show (acc.parentProbes ++ [c.scaledTo oz]) ++ specAscentProbes s.tiles c rest
                = acc.parentProbes ++ c.scaledTo oz :: specAscentProbes s.tiles c rest by
              simp)
      · simp only [hd, Bool.or_true, if_true]

/-- C3: the ancestor ascent is memoized — over any ideal coordinate set the
list of ancestor keys probed by the pass never repeats a key — and, for a
single non-overzoomed ideal over residents at or below its detail level
with an empty bounded cache and a loader that never returns data
immediately, the probes are exactly the spec's walk: parent by parent over
the descending target zooms, stopping right after the first ancestor found
resident with data. -/
theorem claim_C3 (env : Env) (s : SCState) (c : OverscaledTileID)
    (hzz : c.overscaledZ = c.z) (hmax : c.z < env.maxzoom)
    (hnd : (addTile env s c).tile.hasData = false)
    (hres : ∀ e ∈ s.tiles, (e : OverscaledTileID × Tile).1.overscaledZ ≤ c.overscaledZ)
    (hcache : s.cache = [])
    (hload : ∀ id, (env.load id).hasData = false) :
    (∀ (env2 : Env) (s2 : SCState) (ideals : List OverscaledTileID),
      (updateRetainedTiles env2 s2 ideals).parentProbes.Nodup) ∧
    (updateRetainedTiles env s [c]).parentProbes =
      specAscentProbes s.tiles c
        (ascentTargets c.overscaledZ
          (max (c.overscaledZ - maxOverzooming) env.minzoom)) := by
  refine ⟨fun env2 s2 ideals => updateRetained_parentProbes_nodup env2 s2 ideals, ?_⟩
  have hmz : minIdealZoom [c] c.overscaledZ = c.overscaledZ := minIdealZoom_single c
  have hlt : minIdealZoom [c] c.overscaledZ < env.maxzoom := by
    rw [hmz, hzz]; exact hmax
  set st1 := (addTile env s c).state with hst1
  set mz := minIdealZoom [c] c.overscaledZ with hmzdef
  set mcv := max (c.overscaledZ - maxOverzooming) env.minzoom with hmcv
  set mxv := max (c.overscaledZ + maxUnderzooming) env.minzoom with hmxv
  have hp1 : phase1Run env s [c] mz = ⟨st1, [c], [c], (addTile env s c).loads⟩ := by
    unfold phase1Run
    simp only [List.foldl_cons, List.foldl_nil]
    unfold phase1Step
    simp [hnd, hlt, retainInsert_nil, hst1]
  have hstep : ∀ (acc : List OverscaledTileID) (e : OverscaledTileID × Tile),
      e ∈ st1.tiles → retainChildStep st1.tiles [c] mz mxv acc e = acc := by
    intro acc e he
    have hoz : e.1.overscaledZ ≤ mz := by
      rw [hmz]
      rcases addTile_mem_tiles (hst1 ▸ he) with h | h
      · rw [h]
      · exact hres e h
    unfold retainChildStep
    split
    · rfl
    · next hcond =>
      exfalso
      apply hcond
      simp [hoz]
  have hretain2 : retainLoadedChildren st1.tiles [c] mz mxv [c] = [c] := by
    unfold retainLoadedChildren
    exact foldl_fixed _ st1.tiles [c] hstep
  have hlkc : lookupTile st1.tiles c = some (addTile env s c).tile := by
    rw [hst1]
    exact addTile_lookup_self env s c
  have hmaxle : ¬ env.maxzoom ≤ c.z := by omega
  have hcf := children_canonical_facts hzz (show c.overscaledZ < env.maxzoom by omega)
  have hall : ((c.children env.maxzoom).all
      (fun k => ([c] : List OverscaledTileID).contains k)) = false := by
    rcases hch : c.children env.maxzoom with _ | ⟨k0, kr⟩
    · exfalso
      have hchne : c.children env.maxzoom ≠ [] := by
        unfold OverscaledTileID.children
        rw [if_neg (show ¬ env.maxzoom ≤ c.overscaledZ by omega)]
        simp
      exact hchne hch
    · have hk0 : k0 ∈ c.children env.maxzoom := by
        rw [hch]
        exact List.mem_cons_self _ _
      obtain ⟨hkoz, hkne, hksc⟩ := hcf k0 hk0
      have hcont : (([c] : List OverscaledTileID).contains k0) = false := by
        rcases hb : (([c] : List OverscaledTileID).contains k0)
        · rfl
        · exfalso
          exact hkne (by simpa using (contains_iff_mem [c] k0).mp hb)
      simp only [List.all_cons, hcont, Bool.false_and]
  have hproc : processIdeal env mcv ⟨[c], [], [], [], st1, (addTile env s c).loads⟩ c =
      ascend env c (ascentTargets c.overscaledZ mcv)
        (addTile env s c).tile.wasRequested
        ⟨[c], [], [], [], st1, (addTile env s c).loads⟩ := by
    unfold processIdeal
    rw [show lookupTile (⟨[c], [], [], [], st1,
        (addTile env s c).loads⟩ : RetainAcc).st.tiles c = some (addTile env s c).tile from
      hlkc]
    simp only [hnd, Bool.false_eq_true, if_false, hmaxle, hall, if_true]
  have hlkt : ∀ t ∈ ascentTargets c.overscaledZ mcv,
      lookupTile st1.tiles (c.scaledTo t) = lookupTile s.tiles (c.scaledTo t) := by
    intro t ht
    have htlt : t < c.overscaledZ := ascentTargets_lt c.overscaledZ mcv t ht
    have hnec : c.scaledTo t ≠ c := by
      intro h
      have h2 := congrArg OverscaledTileID.overscaledZ h
      rw [scaledTo_overscaledZ] at h2
      omega
    rw [hst1]
    exact addTile_lookup_ne env s c (c.scaledTo t) hnec
  have hcempty : st1.cache = [] := by
    rw [hst1]
    exact addTile_cache_empty env s c hcache
  have hascend := ascend_spec env s c hload (ascentTargets c.overscaledZ mcv)
    ((addTile env s c).tile.wasRequested)
    ⟨[c], [], [], [], st1, (addTile env s c).loads⟩
    (ascentTargets_nodup c.overscaledZ mcv) hlkt
    (fun t ht h => absurd h (List.not_mem_nil _)) hcempty
  have hfin : (updateRetainedTiles env s [c]).parentProbes =
      (ascend env c (ascentTargets c.overscaledZ mcv)
        (addTile env s c).tile.wasRequested
        ⟨[c], [], [], [], st1, (addTile env s c).loads⟩).parentProbes := by
    rw [updateRetained_single]
    unfold retentionPass
    rw [← hmzdef, ← hmcv, ← hmxv, hp1]
    unfold RetainAcc.ofPhase1
    unfold phase3Run
    simp only [List.foldl_cons, List.foldl_nil]
    rw [hretain2, hproc]
    rfl
  rw [hfin, hascend]
  exact List.nil_append _

/-- Witness for C3: a `z2` ideal over a loaded `z1` resident — the pass
probes exactly one ancestor, the one resident with data, and stops there. -/
theorem claim_C3_witness :
    ((stateOf [(⟨1, 0, 1, 0, 0⟩, TileState.loaded)]).cache = []) ∧
    (updateRetainedTiles envLoading (stateOf [(⟨1, 0, 1, 0, 0⟩, TileState.loaded)])
        [⟨2, 0, 2, 0, 0⟩]).parentProbes =
      specAscentProbes (stateOf [(⟨1, 0, 1, 0, 0⟩, TileState.loaded)]).tiles
        (⟨2, 0, 2, 0, 0⟩ : OverscaledTileID)
        (ascentTargets 2 (max (2 - maxOverzooming) envLoading.minzoom)) := by
  have h := claim_C3 envLoading (stateOf [(⟨1, 0, 1, 0, 0⟩, TileState.loaded)])
    ⟨2, 0, 2, 0, 0⟩ (by decide) (by decide) (by decide) (by decide) (by decide)
    (fun _ => rfl)
  exact ⟨by decide, h.2⟩

end SourceCacheModel
